import Mathlib

/-!
Verification of the CREST concolic-execution runtime core.

The development shallowly embeds the instrumentation hook layer
(`libcrest`, the `__Crest*` functions), the operator and type enums, and —
where only declarations survive in the sources — models the symbolic
interpreter, symbolic memory and execution-record serialization from the
specification.  Machine integers (`value_t`, a 64-bit signed integer, and
`addr_t`, a 64-bit unsigned integer) are embedded as `Int` and `Nat` with
explicit range side conditions where serialization widths matter.
-/

namespace Crest
/-- C numeric type tags, translated from `basic_types.h` (`types::type_t`). -/
inductive type_t where
  | BOOLEAN
  | U_CHAR | CHAR
  | U_SHORT | SHORT
  | U_INT | INT
  | U_LONG | LONG
  | U_LONG_LONG | LONG_LONG
  | STRUCT
deriving DecidableEq, Fintype

/-- Modelled from the spec: byte widths of the C numeric types
(`kSizeOfType` is only declared `extern` in the sources). -/
def sizeOfType : type_t → Nat
  | .BOOLEAN => 1
  | .U_CHAR => 1 | .CHAR => 1
  | .U_SHORT => 2 | .SHORT => 2
  | .U_INT => 4 | .INT => 4
  | .U_LONG => 8 | .LONG => 8
  | .U_LONG_LONG => 8 | .LONG_LONG => 8
  | .STRUCT => 0

namespace ops

/-- Unary operators of the expression representation, translated from
`basic_types.h` line 46: `enum unary_op_t { NEGATE, LOGICAL_NOT,
BITWISE_NOT, CAST };`. -/
inductive unary_op_t where
  | NEGATE | LOGICAL_NOT | BITWISE_NOT | CAST
deriving DecidableEq, Fintype

end ops

/-- Modelled from the spec: the trunk operator namespace referenced by
`kOpTable` in the instrumentation glue (the trunk `basic_types.h` header
with these enumerators is not among the sources; the member names are
taken from the `kOpTable` initializer itself). -/
inductive TrunkOp where
  | ADD | SUBTRACT | MULTIPLY | DIV | S_DIV | MOD | S_MOD
  | SHIFT_L | SHIFT_R | S_SHIFT_R | BITWISE_AND | BITWISE_OR | BITWISE_XOR
  | EQ | NEQ | GT | S_GT | LE | S_LE | LT | S_LT | GE | S_GE
  | CONCRETE
  | NEGATE | BITWISE_NOT | LOGICAL_NOT | UNSIGNED_CAST | SIGNED_CAST
  | ADD_PI | SUBTRACT_PI | SUBTRACT_PP
deriving DecidableEq, Fintype

/-- Table for converting operators defined in `libcrest/crest.h` to those
defined in `base/basic_types.h`, translated entry for entry from the
`kOpTable` initializer in the instrumentation glue. -/
def kOpTable : List TrunkOp :=
  [ -- binary arithmetic
    .ADD, .SUBTRACT, .MULTIPLY,
    .DIV, .S_DIV, .MOD, .S_MOD,
    -- binary bitwise operators
    .SHIFT_L, .SHIFT_R, .S_SHIFT_R,
    .BITWISE_AND, .BITWISE_OR, .BITWISE_XOR,
    -- binary comparison
    .EQ, .NEQ,
    .GT, .S_GT, .LE, .S_LE,
    .LT, .S_LT, .GE, .S_GE,
    -- unhandled binary operators
    .CONCRETE,
    -- unary operators
    .NEGATE, .BITWISE_NOT, .LOGICAL_NOT, .UNSIGNED_CAST, .SIGNED_CAST,
    -- pointer operators
    .ADD_PI, .SUBTRACT_PI, .SUBTRACT_PP ]

/-- Modelled from the spec: the `__CREST_OP` opcode of the first unary
operator (`__CREST_NEGATE`); `libcrest/crest.h` is not among the sources,
so the opcode values are read off from the `kOpTable` layout. -/
def crestNEGATE : Nat := 24

/-- Modelled from the spec: the `__CREST_OP` opcode `__CREST_SIGNED_CAST`,
the last unary operator. -/
def crestSIGNED_CAST : Nat := 28

/-- Modelled from the spec: the `__CREST_OP` opcode `__CREST_ADD`. -/
def crestADD : Nat := 0

/-- Modelled from the spec: the `__CREST_OP` opcode `__CREST_CONCRETE`. -/
def crestCONCRETE : Nat := 23

/-- Modelled from the spec: the `__CREST_OP` opcode `__CREST_EQ`,
the first comparison operator. -/
def crestEQ : Nat := 13

/-- Modelled from the spec: the `__CREST_OP` opcode `__CREST_S_GEQ`,
the last comparison operator. -/
def crestS_GEQ : Nat := 22

/-- Modelled from the spec: unary operators of symbolic expression nodes
(spec section 3; the trunk expression headers are not among the sources). -/
inductive UnOp where
  | NEGATE | LOGICAL_NOT | BITWISE_NOT | UNSIGNED_CAST | SIGNED_CAST
deriving DecidableEq, Fintype

/-- Modelled from the spec: binary (including pointer-arithmetic)
operators of symbolic expression nodes (spec section 3). -/
inductive BinOp where
  | ADD | SUBTRACT | MULTIPLY | DIV | S_DIV | MOD | S_MOD
  | SHIFT_L | SHIFT_R | S_SHIFT_R | BITWISE_AND | BITWISE_OR | BITWISE_XOR
  | ADD_PI | SUBTRACT_PI | SUBTRACT_PP
deriving DecidableEq, Fintype

/-- Modelled from the spec: comparison operators of symbolic expression
nodes (spec section 3). -/
inductive CmpOp where
  | EQ | NEQ | GT | LE | LT | GE | S_GT | S_LE | S_LT | S_GE
deriving DecidableEq, Fintype

/-- Serialization code of a unary operator (one byte). -/
def UnOp.code : UnOp → Nat
  | .NEGATE => 0 | .LOGICAL_NOT => 1 | .BITWISE_NOT => 2
  | .UNSIGNED_CAST => 3 | .SIGNED_CAST => 4

/-- Decode a unary-operator byte. -/
def UnOp.ofCode : Nat → Option UnOp
  | 0 => some .NEGATE | 1 => some .LOGICAL_NOT | 2 => some .BITWISE_NOT
  | 3 => some .UNSIGNED_CAST | 4 => some .SIGNED_CAST | _ => none

/-- Serialization code of a binary operator (one byte). -/
def BinOp.code : BinOp → Nat
  | .ADD => 0 | .SUBTRACT => 1 | .MULTIPLY => 2 | .DIV => 3 | .S_DIV => 4
  | .MOD => 5 | .S_MOD => 6 | .SHIFT_L => 7 | .SHIFT_R => 8 | .S_SHIFT_R => 9
  | .BITWISE_AND => 10 | .BITWISE_OR => 11 | .BITWISE_XOR => 12
  | .ADD_PI => 13 | .SUBTRACT_PI => 14 | .SUBTRACT_PP => 15

/-- Decode a binary-operator byte. -/
def BinOp.ofCode : Nat → Option BinOp
  | 0 => some .ADD | 1 => some .SUBTRACT | 2 => some .MULTIPLY
  | 3 => some .DIV | 4 => some .S_DIV | 5 => some .MOD | 6 => some .S_MOD
  | 7 => some .SHIFT_L | 8 => some .SHIFT_R | 9 => some .S_SHIFT_R
  | 10 => some .BITWISE_AND | 11 => some .BITWISE_OR | 12 => some .BITWISE_XOR
  | 13 => some .ADD_PI | 14 => some .SUBTRACT_PI | 15 => some .SUBTRACT_PP
  | _ => none

/-- Serialization code of a comparison operator (one byte). -/
def CmpOp.code : CmpOp → Nat
  | .EQ => 0 | .NEQ => 1 | .GT => 2 | .LE => 3 | .LT => 4 | .GE => 5
  | .S_GT => 6 | .S_LE => 7 | .S_LT => 8 | .S_GE => 9

/-- Decode a comparison-operator byte. -/
def CmpOp.ofCode : Nat → Option CmpOp
  | 0 => some .EQ | 1 => some .NEQ | 2 => some .GT | 3 => some .LE
  | 4 => some .LT | 5 => some .GE | 6 => some .S_GT | 7 => some .S_LE
  | 8 => some .S_LT | 9 => some .S_GE | _ => none

/-- Modelled from the spec: the symbolic expression tree (spec section 3):
constants, leaf input variables, unary, binary and comparison nodes; every
node carries its byte width and the concrete sample value of the current
run. -/
inductive SymbolicExpr where
  | Const (size : Nat) (value : Int)
  | Basic (size : Nat) (value : Int) (variable_ : Nat)
  | Unary (op : UnOp) (size : Nat) (value : Int) (child : SymbolicExpr)
  | Bin (op : BinOp) (size : Nat) (value : Int) (left right : SymbolicExpr)
  | Compare (op : CmpOp) (size : Nat) (value : Int) (left right : SymbolicExpr)
deriving DecidableEq

/-- Byte width of an expression node. -/
def SymbolicExpr.size : SymbolicExpr → Nat
  | .Const sz _ => sz
  | .Basic sz _ _ => sz
  | .Unary _ sz _ _ => sz
  | .Bin _ sz _ _ _ => sz
  | .Compare _ sz _ _ _ => sz

/-- Nesting depth of an expression tree (used to bound parser fuel). -/
def SymbolicExpr.depth : SymbolicExpr → Nat
  | .Const _ _ => 1
  | .Basic _ _ _ => 1
  | .Unary _ _ _ c => c.depth + 1
  | .Bin _ _ _ l r => max l.depth r.depth + 1
  | .Compare _ _ _ l r => max l.depth r.depth + 1

/-- Range check for a `value_t` (64-bit signed integer). -/
def wfVal (v : Int) : Bool := -(2 ^ 63) ≤ v && v < 2 ^ 63

/-- Well-formedness of an expression node for serialization: widths fit a
4-byte prefix, values fit 64 bits, variable identifiers fit 4 bytes. -/
def wfExpr : SymbolicExpr → Bool
  | .Const sz v => sz < 2 ^ 32 && wfVal v
  | .Basic sz v x => sz < 2 ^ 32 && wfVal v && x < 2 ^ 32
  | .Unary _ sz v c => sz < 2 ^ 32 && wfVal v && wfExpr c
  | .Bin _ sz v l r => sz < 2 ^ 32 && wfVal v && wfExpr l && wfExpr r
  | .Compare _ sz v l r => sz < 2 ^ 32 && wfVal v && wfExpr l && wfExpr r

/-! Byte-level encoders for the execution-record serialization.
Modelled from the spec (section 4.4): a stable byte encoding with
length-prefixed sequences; multi-byte integers are emitted little-endian,
values in 64-bit two's complement. -/

/-- Encode a natural number below `2 ^ 32` as 4 little-endian bytes. -/
def serNat4 (n : Nat) : List Nat :=
  [n % 256, n / 256 % 256, n / 65536 % 256, n / 16777216 % 256]

/-- Decode a 4-byte little-endian natural number. -/
def deserNat4 : List Nat → Option (Nat × List Nat)
  | b0 :: b1 :: b2 :: b3 :: rest =>
      some (b0 + 256 * b1 + 65536 * b2 + 16777216 * b3, rest)
  | _ => none

/-- Encode a natural number below `2 ^ 64` as 8 little-endian bytes. -/
def serNat8 (n : Nat) : List Nat :=
  [n % 256, n / 256 % 256, n / 65536 % 256, n / 16777216 % 256,
   n / 4294967296 % 256, n / 1099511627776 % 256,
   n / 281474976710656 % 256, n / 72057594037927936 % 256]

/-- Decode an 8-byte little-endian natural number. -/
def deserNat8 : List Nat → Option (Nat × List Nat)
  | b0 :: b1 :: b2 :: b3 :: b4 :: b5 :: b6 :: b7 :: rest =>
      some (b0 + 256 * b1 + 65536 * b2 + 16777216 * b3 + 4294967296 * b4 +
            1099511627776 * b5 + 281474976710656 * b6 +
            72057594037927936 * b7, rest)
  | _ => none

/-- Encode a `value_t` (64-bit signed) as 8 bytes, two's complement. -/
def serValue (v : Int) : List Nat := serNat8 (v % (2 ^ 64 : Int)).toNat

/-- Decode a `value_t` from 8 bytes, two's complement. -/
def deserValue (l : List Nat) : Option (Int × List Nat) :=
  (deserNat8 l).map fun p =>
    (if p.1 < 2 ^ 63 then (p.1 : Int) else (p.1 : Int) - 2 ^ 64, p.2)

/-- Modelled from the spec: serialization of one expression node — a tag
byte, the operator byte for interior nodes, the width, the concrete value,
then the serialized children (spec sections 4.1 and 4.4). -/
def serExpr : SymbolicExpr → List Nat
  | .Const sz v => 0 :: (serNat4 sz ++ serValue v)
  | .Basic sz v x => 1 :: (serNat4 sz ++ serValue v ++ serNat4 x)
  | .Unary op sz v c => 2 :: op.code :: (serNat4 sz ++ serValue v ++ serExpr c)
  | .Bin op sz v l r =>
      3 :: op.code :: (serNat4 sz ++ serValue v ++ serExpr l ++ serExpr r)
  | .Compare op sz v l r =>
      4 :: op.code :: (serNat4 sz ++ serValue v ++ serExpr l ++ serExpr r)

/-- Modelled from the spec: deserialization of one expression node.  The
fuel argument bounds the nesting depth; the top-level caller passes the
length of the whole input, which always suffices. -/
def deserExpr : Nat → List Nat → Option (SymbolicExpr × List Nat)
  | 0, _ => none
  | _ + 1, [] => none
  | fuel + 1, t :: l =>
    match t with
    | 0 => do
        let (sz, l1) ← deserNat4 l
        let (v, l2) ← deserValue l1
        pure (.Const sz v, l2)
    | 1 => do
        let (sz, l1) ← deserNat4 l
        let (v, l2) ← deserValue l1
        let (x, l3) ← deserNat4 l2
        pure (.Basic sz v x, l3)
    | 2 =>
      match l with
      | [] => none
      | oc :: l0 => do
          let op ← UnOp.ofCode oc
          let (sz, l1) ← deserNat4 l0
          let (v, l2) ← deserValue l1
          let (c, l3) ← deserExpr fuel l2
          pure (.Unary op sz v c, l3)
    | 3 =>
      match l with
      | [] => none
      | oc :: l0 => do
          let op ← BinOp.ofCode oc
          let (sz, l1) ← deserNat4 l0
          let (v, l2) ← deserValue l1
          let (el, l3) ← deserExpr fuel l2
          let (er, l4) ← deserExpr fuel l3
          pure (.Bin op sz v el er, l4)
    | 4 =>
      match l with
      | [] => none
      | oc :: l0 => do
          let op ← CmpOp.ofCode oc
          let (sz, l1) ← deserNat4 l0
          let (v, l2) ← deserValue l1
          let (el, l3) ← deserExpr fuel l2
          let (er, l4) ← deserExpr fuel l3
          pure (.Compare op sz v el er, l4)
    | _ => none

/-- Concatenate the encodings of a sequence of items. -/
def serAll {α : Type} (f : α → List Nat) : List α → List Nat
  | [] => []
  | x :: xs => f x ++ serAll f xs

/-- Decode a fixed count of items with a given item decoder. -/
def deserCount {α : Type} (f : List Nat → Option (α × List Nat)) :
    Nat → List Nat → Option (List α × List Nat)
  | 0, l => some ([], l)
  | n + 1, l => do
      let (x, l1) ← f l
      let (xs, l2) ← deserCount f n l1
      pure (x :: xs, l2)

/-- Serialize one path constraint: the branch expression followed by the
taken direction (spec section 4.4). -/
def serConstraint (c : SymbolicExpr × Bool) : List Nat :=
  serExpr c.1 ++ [if c.2 then 1 else 0]

/-- Deserialize one path constraint. -/
def deserConstraint (fuel : Nat) (l : List Nat) :
    Option ((SymbolicExpr × Bool) × List Nat) := do
  let (e, l1) ← deserExpr fuel l
  match l1 with
  | 0 :: l2 => pure ((e, false), l2)
  | 1 :: l2 => pure ((e, true), l2)
  | _ => none

/-- Serialize one symbolic-memory binding: the address (8 bytes, an
`addr_t` is an unsigned long) followed by the bound expression. -/
def serBinding (p : Nat × SymbolicExpr) : List Nat :=
  serNat8 p.1 ++ serExpr p.2

/-- Deserialize one symbolic-memory binding. -/
def deserBinding (fuel : Nat) (l : List Nat) :
    Option ((Nat × SymbolicExpr) × List Nat) := do
  let (a, l1) ← deserNat8 l
  let (e, l2) ← deserExpr fuel l1
  pure ((a, e), l2)

/-- Insert a binding into an address-sorted binding list. -/
def insertByAddr (p : Nat × SymbolicExpr) :
    List (Nat × SymbolicExpr) → List (Nat × SymbolicExpr)
  | [] => [p]
  | q :: qs => if p.1 ≤ q.1 then p :: q :: qs else q :: insertByAddr p qs

/-- Sort a binding list by address (insertion sort); serialization sorts
bindings because the hash map's iteration order is not stable across runs
(spec section 4.2). -/
def sortByAddr : List (Nat × SymbolicExpr) → List (Nat × SymbolicExpr)
  | [] => []
  | p :: ps => insertByAddr p (sortByAddr ps)

/-- The symbolic memory: address-to-expression bindings kept in insertion
order, the embedding of the `hash_map<addr_t, SymbolicExpr*>` member
`mem_` declared in `symbolic_memory.h`. -/
abbrev SymbolicMemory := List (Nat × SymbolicExpr)

/-- Look up the binding stored at an address. -/
def memLookup (a : Nat) : SymbolicMemory → Option SymbolicExpr
  | [] => none
  | p :: ps => if p.1 = a then some p.2 else memLookup a ps

/-- Bind an address to an expression, replacing any existing binding at
that exact address (hash-map assignment). -/
def memWrite (a : Nat) (e : SymbolicExpr) : SymbolicMemory → SymbolicMemory
  | [] => [(a, e)]
  | p :: ps => if p.1 = a then (a, e) :: ps else p :: memWrite a e ps

/-- Remove the binding stored at an exact address, if any. -/
def memRemove (a : Nat) : SymbolicMemory → SymbolicMemory
  | [] => []
  | p :: ps => if p.1 = a then ps else p :: memRemove a ps

namespace SymbolicMemory

/-- Modelled from the spec: `SymbolicMemory::read` (declared in
`symbolic_memory.h`, implementation not among the sources) — never fails;
returns the stored expression when the stored width matches the requested
type, and otherwise a pure constant carrying the caller's concrete value
(spec section 4.2). -/
def read (addr : Nat) (ty : type_t) (val : Int) (m : SymbolicMemory) :
    SymbolicExpr :=
  match memLookup addr m with
  | some e => if e.size = sizeOfType ty then e else .Const (sizeOfType ty) val
  | none => .Const (sizeOfType ty) val

/-- Modelled from the spec: `SymbolicMemory::write` — takes ownership of
the expression and replaces any existing binding at the address (spec
section 4.2; the `ty` parameter is unused, matching the header's TODO). -/
def write (addr : Nat) (_ty : type_t) (e : SymbolicExpr) (m : SymbolicMemory) :
    SymbolicMemory :=
  memWrite addr e m

/-- Modelled from the spec: `SymbolicMemory::concretize` — removes every
binding fully or partially inside the byte range (spec section 4.2). -/
def concretize (addr : Nat) (n : Nat) (m : SymbolicMemory) : SymbolicMemory :=
  m.filter fun p => !(decide (p.1 < addr + n) && decide (addr < p.1 + p.2.size))

/-- Modelled from the spec: `SymbolicMemory::Serialize` — a length prefix
followed by the live bindings sorted by address, so the encoding does not
depend on the hash map's iteration order (spec section 4.2). -/
def Serialize (m : SymbolicMemory) : List Nat :=
  serNat4 (sortByAddr m).length ++ serAll serBinding (sortByAddr m)

end SymbolicMemory

/-- Modelled from the spec: the execution record (spec section 4.4) — the
input vector, the ordered constraint sequence, and the final
symbolic-memory binding set. -/
structure SymbolicExecution where
  inputs : List Int
  constraints : List (SymbolicExpr × Bool)
  mem : SymbolicMemory
deriving DecidableEq

/-- Addresses of a binding list in strictly increasing order (the
canonical form of a binding set). -/
def addrAscending : SymbolicMemory → Bool
  | [] => true
  | [_] => true
  | p :: q :: r => decide (p.1 < q.1) && addrAscending (q :: r)

/-- Well-formedness of an execution record for serialization: all values
in `value_t` range, all counts within the 4-byte length prefixes, all
addresses in `addr_t` range, and the binding set in its canonical
address-ascending form. -/
def wfEx (ex : SymbolicExecution) : Bool :=
  ex.inputs.all wfVal && decide (ex.inputs.length < 2 ^ 32) &&
  ex.constraints.all (fun c => wfExpr c.1) &&
  decide (ex.constraints.length < 2 ^ 32) &&
  ex.mem.all (fun p => decide (p.1 < 2 ^ 64) && wfExpr p.2) &&
  decide (ex.mem.length < 2 ^ 32) && addrAscending ex.mem

namespace SymbolicExecution

/-- Modelled from the spec: `SymbolicExecution::Serialize` — one byte
sequence holding, in order, the length-prefixed input vector, the
length-prefixed constraint sequence, and the symbolic-memory binding set
(spec section 4.4). -/
def Serialize (ex : SymbolicExecution) : List Nat :=
  serNat4 ex.inputs.length ++ serAll serValue ex.inputs ++
  serNat4 ex.constraints.length ++ serAll serConstraint ex.constraints ++
  SymbolicMemory.Serialize ex.mem

/-- Modelled from the spec: deserialization of an execution record,
consuming the whole byte sequence. -/
def deserialize (l : List Nat) : Option SymbolicExecution :=
  match deserNat4 l with
  | none => none
  | some (n1, l1) =>
    match deserCount deserValue n1 l1 with
    | none => none
    | some (vs, l2) =>
      match deserNat4 l2 with
      | none => none
      | some (n2, l3) =>
        match deserCount (deserConstraint l.length) n2 l3 with
        | none => none
        | some (cs, l4) =>
          match deserNat4 l4 with
          | none => none
          | some (n3, l5) =>
            match deserCount (deserBinding l.length) n3 l5 with
            | none => none
            | some (bs, l6) =>
              if l6.isEmpty then some ⟨vs, cs, bs⟩ else none

end SymbolicExecution

/-- Modelled from the spec: the symbolic interpreter's state (spec
section 4.3) — the operand evaluation stack of (concrete value, optional
owned expression) pairs, the symbolic memory, the input vector with the
count of inputs issued so far, the growing path record (branch identities
and constraints), plus two observers: the variable identifiers issued (in
order) and the number of expression nodes allocated. -/
structure InterpState where
  stack : List (Int × Option SymbolicExpr)
  mem : SymbolicMemory
  inputs : List Int
  ninputs : Nat
  issued : List Nat
  constraints : List (SymbolicExpr × Bool)
  branches : List Int
  allocs : Nat
deriving DecidableEq

/-- Modelled from the spec: the interpreter as constructed by
`__CrestInit` from the loaded input vector — empty stack, empty memory,
empty path record, no inputs issued. -/
def initInterp (input : List Int) : InterpState :=
  ⟨[], [], input, 0, [], [], [], 0⟩

namespace SymbolicInterpreter

/-- Modelled from the spec: `Alloc` registers a fresh global region; it
has no symbolic content yet, so the state is unchanged. -/
def Alloc (_id : Int) (_addr : Nat) (_size : Nat) (s : InterpState) :
    InterpState := s

/-- Modelled from the spec: `Load` pushes the concrete value together
with the symbolic binding stored at the address, if any; no expression
node is built for a purely concrete cell (spec sections 4.3 and 8). -/
def Load (_id : Int) (addr : Nat) (_ty : type_t) (val : Int)
    (s : InterpState) : InterpState :=
  { s with stack := (val, memLookup addr s.mem) :: s.stack }

/-- Modelled from the spec: `Deref` consumes the pointer value on top of
the stack; a dereference through a symbolic pointer degrades to purely
concrete tracking (spec section 4.3). -/
def Deref (_id : Int) (addr : Nat) (_ty : type_t) (val : Int)
    (s : InterpState) : Option InterpState :=
  match s.stack with
  | [] => none
  | (_, pe) :: rest =>
      some { s with stack :=
        (val, match pe with
              | some _ => none
              | none => memLookup addr s.mem) :: rest }

/-- Modelled from the spec: `Store` consumes the top evaluation value and
writes it into memory, transferring ownership; storing a purely concrete
value removes any stale binding at the address. -/
def Store (_id : Int) (addr : Nat) (s : InterpState) : Option InterpState :=
  match s.stack with
  | [] => none
  | (_, some e) :: rest =>
      some { s with stack := rest, mem := memWrite addr e s.mem }
  | (_, none) :: rest =>
      some { s with stack := rest, mem := memRemove addr s.mem }

/-- Modelled from the spec: `Write`, the `Store` variant used when the
address was computed symbolically; same transfer semantics. -/
def Write (id : Int) (addr : Nat) (s : InterpState) : Option InterpState :=
  Store id addr s

/-- Modelled from the spec: `ClearStack` discards all evaluation values
at a statement boundary. -/
def ClearStack (_id : Int) (s : InterpState) : InterpState :=
  { s with stack := [] }

/-- Modelled from the spec: unary application — builds a node only when
the operand carries a symbolic expression. -/
def ApplyUnaryOp (_id : Int) (op : UnOp) (ty : type_t) (val : Int)
    (s : InterpState) : Option InterpState :=
  match s.stack with
  | [] => none
  | (_, some e) :: rest =>
      some { s with
        stack := (val, some (.Unary op (sizeOfType ty) val e)) :: rest,
        allocs := s.allocs + 1 }
  | (_, none) :: rest =>
      some { s with stack := (val, none) :: rest }

/-- Combine two popped operands into a binary node when at least one is
symbolic, wrapping a concrete co-operand as a constant; returns the
optional result expression and the number of nodes allocated. -/
def mkBin (op : BinOp) (sz : Nat) (val : Int)
    (v1 : Int) (oe1 : Option SymbolicExpr)
    (v2 : Int) (oe2 : Option SymbolicExpr) : Option SymbolicExpr × Nat :=
  match oe1, oe2 with
  | none, none => (none, 0)
  | some e1, none => (some (.Bin op sz val e1 (.Const sz v2)), 2)
  | none, some e2 => (some (.Bin op sz val (.Const sz v1) e2), 2)
  | some e1, some e2 => (some (.Bin op sz val e1 e2), 1)

/-- As `mkBin`, for comparison nodes. -/
def mkCmp (op : CmpOp) (sz : Nat) (val : Int)
    (v1 : Int) (oe1 : Option SymbolicExpr)
    (v2 : Int) (oe2 : Option SymbolicExpr) : Option SymbolicExpr × Nat :=
  match oe1, oe2 with
  | none, none => (none, 0)
  | some e1, none => (some (.Compare op sz val e1 (.Const sz v2)), 2)
  | none, some e2 => (some (.Compare op sz val (.Const sz v1) e2), 2)
  | some e1, some e2 => (some (.Compare op sz val e1 e2), 1)

/-- Modelled from the spec: binary application — pops two operands and
builds a node only when at least one carries a symbolic expression. -/
def ApplyBinaryOp (_id : Int) (op : BinOp) (ty : type_t) (val : Int)
    (s : InterpState) : Option InterpState :=
  match s.stack with
  | (v2, oe2) :: (v1, oe1) :: rest =>
      let r := mkBin op (sizeOfType ty) val v1 oe1 v2 oe2
      some { s with stack := (val, r.1) :: rest, allocs := s.allocs + r.2 }
  | _ => none

/-- Modelled from the spec: comparison application. -/
def ApplyCompareOp (_id : Int) (op : CmpOp) (ty : type_t) (val : Int)
    (s : InterpState) : Option InterpState :=
  match s.stack with
  | (v2, oe2) :: (v1, oe1) :: rest =>
      let r := mkCmp op (sizeOfType ty) val v1 oe1 v2 oe2
      some { s with stack := (val, r.1) :: rest, allocs := s.allocs + r.2 }
  | _ => none

/-- Modelled from the spec: pointer binary application, with the
element/operand size passed explicitly. -/
def ApplyBinPtrOp (_id : Int) (op : BinOp) (sz : Nat) (val : Int)
    (s : InterpState) : Option InterpState :=
  match s.stack with
  | (v2, oe2) :: (v1, oe1) :: rest =>
      let r := mkBin op sz val v1 oe1 v2 oe2
      some { s with stack := (val, r.1) :: rest, allocs := s.allocs + r.2 }
  | _ => none

/-- Modelled from the spec: the sentinel operator application ("operation
result is to be treated as purely concrete", spec section 6) — pops two
operands and pushes the concrete result with no expression. -/
def ApplyConcrete2 (_id : Int) (val : Int) (s : InterpState) :
    Option InterpState :=
  match s.stack with
  | _ :: _ :: rest => some { s with stack := (val, none) :: rest }
  | _ => none

/-- Modelled from the spec: `Branch` — pops the controlling boolean
evaluation value (exactly one value must be pending, otherwise the run
aborts); a symbolic value appends (expression, taken direction) to the
constraint sequence, and the branch identity is always recorded. -/
def Branch (_id : Int) (bid : Int) (b : Bool) (s : InterpState) :
    Option InterpState :=
  match s.stack with
  | [(_, oe)] =>
      some { s with
        stack := [],
        branches := s.branches ++ [bid],
        constraints := s.constraints ++
          (match oe with | some e => [(e, b)] | none => []) }
  | _ => none

/-- Modelled from the spec: `Call` pushes a variable scope and clears any
evaluation-stack remnants from the caller's statement. -/
def Call (_id : Int) (_fid : Nat) (s : InterpState) : InterpState :=
  { s with stack := [] }

/-- Modelled from the spec: `Return` pops a variable scope; the
evaluation stack is untouched so a return value can cross the boundary. -/
def Return (_id : Int) (s : InterpState) : InterpState := s

/-- Modelled from the spec: `HandleReturn` attaches the callee's returned
evaluation value onto the caller's context; if the callee left no value,
a purely concrete value is attached. -/
def HandleReturn (_id : Int) (_ty : type_t) (val : Int) (s : InterpState) :
    InterpState :=
  if s.stack.isEmpty then { s with stack := [(val, none)] } else s

/-- Modelled from the spec: `NewInput` — consumes the next unread input
slot (exhaustion is a fatal invariant failure), binds a fresh symbolic
leaf with identifier equal to the count of inputs issued so far to the
address, and returns the concrete value (spec section 4.3). -/
def NewInput (ty : type_t) (addr : Nat) (s : InterpState) :
    Option (InterpState × Int) :=
  if h : s.ninputs < s.inputs.length then
    let val := s.inputs.get ⟨s.ninputs, h⟩
    some ({ s with
      mem := memWrite addr (.Basic (sizeOfType ty) val s.ninputs) s.mem,
      ninputs := s.ninputs + 1,
      issued := s.issued ++ [s.ninputs],
      allocs := s.allocs + 1 }, val)
  else none

end SymbolicInterpreter

/-- One symbolic-interpreter operation (spec section 4.3), used to state
properties over arbitrary interpreter call sequences. -/
inductive SIOp where
  | alloc (id : Int) (addr : Nat) (sz : Nat)
  | load (id : Int) (addr : Nat) (ty : type_t) (val : Int)
  | deref (id : Int) (addr : Nat) (ty : type_t) (val : Int)
  | store (id : Int) (addr : Nat)
  | write (id : Int) (addr : Nat)
  | clearStack (id : Int)
  | applyUn (id : Int) (op : UnOp) (ty : type_t) (val : Int)
  | applyBin (id : Int) (op : BinOp) (ty : type_t) (val : Int)
  | applyCmp (id : Int) (op : CmpOp) (ty : type_t) (val : Int)
  | applyPtr (id : Int) (op : BinOp) (sz : Nat) (val : Int)
  | applyConc (id : Int) (val : Int)
  | branch (id : Int) (bid : Int) (b : Bool)
  | call (id : Int) (fid : Nat)
  | ret (id : Int)
  | handleReturn (id : Int) (ty : type_t) (val : Int)
  | newInput (ty : type_t) (addr : Nat)
deriving DecidableEq

/-- Execute one interpreter operation. -/
def stepSI : SIOp → InterpState → Option InterpState
  | .alloc id addr sz, s => some (SymbolicInterpreter.Alloc id addr sz s)
  | .load id addr ty val, s => some (SymbolicInterpreter.Load id addr ty val s)
  | .deref id addr ty val, s => SymbolicInterpreter.Deref id addr ty val s
  | .store id addr, s => SymbolicInterpreter.Store id addr s
  | .write id addr, s => SymbolicInterpreter.Write id addr s
  | .clearStack id, s => some (SymbolicInterpreter.ClearStack id s)
  | .applyUn id op ty val, s => SymbolicInterpreter.ApplyUnaryOp id op ty val s
  | .applyBin id op ty val, s => SymbolicInterpreter.ApplyBinaryOp id op ty val s
  | .applyCmp id op ty val, s => SymbolicInterpreter.ApplyCompareOp id op ty val s
  | .applyPtr id op sz val, s => SymbolicInterpreter.ApplyBinPtrOp id op sz val s
  | .applyConc id val, s => SymbolicInterpreter.ApplyConcrete2 id val s
  | .branch id bid b, s => SymbolicInterpreter.Branch id bid b s
  | .call id fid, s => some (SymbolicInterpreter.Call id fid s)
  | .ret id, s => some (SymbolicInterpreter.Return id s)
  | .handleReturn id ty val, s =>
      some (SymbolicInterpreter.HandleReturn id ty val s)
  | .newInput ty addr, s =>
      (SymbolicInterpreter.NewInput ty addr s).map Prod.fst

/-- Execute a sequence of interpreter operations; a fatal invariant
failure anywhere aborts the run. -/
def runSI : List SIOp → InterpState → Option InterpState
  | [], s => some s
  | op :: ops, s =>
      match stepSI op s with
      | none => none
      | some s2 => runSI ops s2

/-! The instrumentation hook layer, translated from the `libcrest`
source file (`__CrestInit`, the `__Crest*` hooks and the symbolic input
functions). -/

/-- The global state of the hook layer: the `pre_symbolic` flag and the
symbolic interpreter `SI`, both file-static in the source. -/
structure CrestState where
  pre_symbolic : Bool
  si : InterpState
deriving DecidableEq

/-- Translated from `__CrestInit`: reads the input (here a parameter),
creates the interpreter, and raises the `pre_symbolic` latch. -/
def __CrestInit (input : List Int) : CrestState :=
  ⟨true, initInterp input⟩

/-- Translated from `__CrestRegGlobal`: always forwards to `Alloc`. -/
def __CrestRegGlobal (id : Int) (addr : Nat) (sz : Nat) (s : CrestState) :
    CrestState :=
  { s with si := SymbolicInterpreter.Alloc id addr sz s.si }

/-- Translated from `__CrestLoad`: forwards to `Load` unless the
`pre_symbolic` latch is set. -/
def __CrestLoad (id : Int) (addr : Nat) (ty : type_t) (val : Int)
    (s : CrestState) : CrestState :=
  if s.pre_symbolic then s
  else { s with si := SymbolicInterpreter.Load id addr ty val s.si }

/-- Translated from `__CrestDeref`: forwards to `Deref` unless the
`pre_symbolic` latch is set. -/
def __CrestDeref (id : Int) (addr : Nat) (ty : type_t) (val : Int)
    (s : CrestState) : Option CrestState :=
  if s.pre_symbolic then some s
  else (SymbolicInterpreter.Deref id addr ty val s.si).map
    fun si2 => { s with si := si2 }

/-- Translated from `__CrestStore`: forwards to `Store` unless the
`pre_symbolic` latch is set. -/
def __CrestStore (id : Int) (addr : Nat) (s : CrestState) :
    Option CrestState :=
  if s.pre_symbolic then some s
  else (SymbolicInterpreter.Store id addr s.si).map
    fun si2 => { s with si := si2 }

/-- Translated from `__CrestWrite`: forwards to `Write` unless the
`pre_symbolic` latch is set. -/
def __CrestWrite (id : Int) (addr : Nat) (s : CrestState) :
    Option CrestState :=
  if s.pre_symbolic then some s
  else (SymbolicInterpreter.Write id addr s.si).map
    fun si2 => { s with si := si2 }

/-- Translated from `__CrestClearStack`: forwards to `ClearStack` unless
the `pre_symbolic` latch is set. -/
def __CrestClearStack (id : Int) (s : CrestState) : CrestState :=
  if s.pre_symbolic then s
  else { s with si := SymbolicInterpreter.ClearStack id s.si }

/-- Conversion of a trunk operator to a unary expression operator. -/
def trunkToUn : TrunkOp → Option UnOp
  | .NEGATE => some .NEGATE
  | .BITWISE_NOT => some .BITWISE_NOT
  | .LOGICAL_NOT => some .LOGICAL_NOT
  | .UNSIGNED_CAST => some .UNSIGNED_CAST
  | .SIGNED_CAST => some .SIGNED_CAST
  | _ => none

/-- Conversion of a trunk operator to a binary expression operator. -/
def trunkToBin : TrunkOp → Option BinOp
  | .ADD => some .ADD | .SUBTRACT => some .SUBTRACT
  | .MULTIPLY => some .MULTIPLY
  | .DIV => some .DIV | .S_DIV => some .S_DIV
  | .MOD => some .MOD | .S_MOD => some .S_MOD
  | .SHIFT_L => some .SHIFT_L | .SHIFT_R => some .SHIFT_R
  | .S_SHIFT_R => some .S_SHIFT_R
  | .BITWISE_AND => some .BITWISE_AND | .BITWISE_OR => some .BITWISE_OR
  | .BITWISE_XOR => some .BITWISE_XOR
  | .ADD_PI => some .ADD_PI | .SUBTRACT_PI => some .SUBTRACT_PI
  | .SUBTRACT_PP => some .SUBTRACT_PP
  | _ => none

/-- Conversion of a trunk operator to a comparison expression operator. -/
def trunkToCmp : TrunkOp → Option CmpOp
  | .EQ => some .EQ | .NEQ => some .NEQ
  | .GT => some .GT | .S_GT => some .S_GT
  | .LE => some .LE | .S_LE => some .S_LE
  | .LT => some .LT | .S_LT => some .S_LT
  | .GE => some .GE | .S_GE => some .S_GE
  | _ => none

/-- Translated from `__CrestApply1`: a fatal assertion rejects opcodes
outside the unary range; otherwise forwards through `kOpTable` to
`ApplyUnaryOp` unless the `pre_symbolic` latch is set. -/
def __CrestApply1 (id : Int) (op : Nat) (ty : type_t) (val : Int)
    (s : CrestState) : Option CrestState :=
  if crestNEGATE ≤ op ∧ op ≤ crestSIGNED_CAST then
    if s.pre_symbolic then some s
    else
      match trunkToUn (kOpTable.getD op .CONCRETE) with
      | some u =>
          (SymbolicInterpreter.ApplyUnaryOp id u ty val s.si).map
            fun si2 => { s with si := si2 }
      | none => none
  else none

/-- Translated from `__CrestApply2`: asserts the opcode lies in the
binary range; comparison opcodes go to `ApplyCompareOp`, the rest to
`ApplyBinaryOp` (the `CONCRETE` sentinel to the concrete fast path),
unless the `pre_symbolic` latch is set. -/
def __CrestApply2 (id : Int) (op : Nat) (ty : type_t) (val : Int)
    (s : CrestState) : Option CrestState :=
  if crestADD ≤ op ∧ op ≤ crestCONCRETE then
    if s.pre_symbolic then some s
    else
      if crestEQ ≤ op ∧ op ≤ crestS_GEQ then
        match trunkToCmp (kOpTable.getD op .CONCRETE) with
        | some c =>
            (SymbolicInterpreter.ApplyCompareOp id c ty val s.si).map
              fun si2 => { s with si := si2 }
        | none => none
      else
        match trunkToBin (kOpTable.getD op .CONCRETE) with
        | some b =>
            (SymbolicInterpreter.ApplyBinaryOp id b ty val s.si).map
              fun si2 => { s with si := si2 }
        | none =>
            (SymbolicInterpreter.ApplyConcrete2 id val s.si).map
              fun si2 => { s with si := si2 }
  else none

/-- Translated from `__CrestPtrApply2`: forwards through `kOpTable` to
`ApplyBinPtrOp` unless the `pre_symbolic` latch is set. -/
def __CrestPtrApply2 (id : Int) (op : Nat) (sz : Nat) (val : Int)
    (s : CrestState) : Option CrestState :=
  if s.pre_symbolic then some s
  else
    match trunkToBin (kOpTable.getD op .CONCRETE) with
    | some b =>
        (SymbolicInterpreter.ApplyBinPtrOp id b sz val s.si).map
          fun si2 => { s with si := si2 }
    | none => none

/-- Translated from `__CrestBranch`: while the `pre_symbolic` latch is
set, precedes the branch with a fake concrete `CHAR` load of the taken
value at address 0; then always forwards to `Branch`. -/
def __CrestBranch (id : Int) (bid : Int) (b : Bool) (s : CrestState) :
    Option CrestState :=
  let si1 := if s.pre_symbolic then
    SymbolicInterpreter.Load id 0 .CHAR (if b then 1 else 0) s.si
  else s.si
  (SymbolicInterpreter.Branch id bid b si1).map
    fun si2 => { s with si := si2 }

/-- Translated from `__CrestCall`: always forwards to `Call`. -/
def __CrestCall (id : Int) (fid : Nat) (s : CrestState) : CrestState :=
  { s with si := SymbolicInterpreter.Call id fid s.si }

/-- Translated from `__CrestReturn`: always forwards to `Return`. -/
def __CrestReturn (id : Int) (s : CrestState) : CrestState :=
  { s with si := SymbolicInterpreter.Return id s.si }

/-- Translated from `__CrestHandleReturn`: forwards to `HandleReturn`
unless the `pre_symbolic` latch is set. -/
def __CrestHandleReturn (id : Int) (ty : type_t) (val : Int)
    (s : CrestState) : CrestState :=
  if s.pre_symbolic then s
  else { s with si := SymbolicInterpreter.HandleReturn id ty val s.si }

/-- Translated from the symbolic input functions (`__CrestUChar`,
`__CrestUShort`, `__CrestUInt`, `__CrestChar`, `__CrestShort`,
`__CrestInt`): clear the `pre_symbolic` latch and request a fresh input
of the given type bound to the target address. -/
def crestNewInput (ty : type_t) (addr : Nat) (s : CrestState) :
    Option CrestState :=
  (SymbolicInterpreter.NewInput ty addr s.si).map
    fun p => ⟨false, p.1⟩

/-- Translated from `__CrestUChar`. -/
def __CrestUChar (addr : Nat) (s : CrestState) : Option CrestState :=
  crestNewInput .U_CHAR addr s

/-- Translated from `__CrestUShort`. -/
def __CrestUShort (addr : Nat) (s : CrestState) : Option CrestState :=
  crestNewInput .U_SHORT addr s

/-- Translated from `__CrestUInt`. -/
def __CrestUInt (addr : Nat) (s : CrestState) : Option CrestState :=
  crestNewInput .U_INT addr s

/-- Translated from `__CrestChar`. -/
def __CrestChar (addr : Nat) (s : CrestState) : Option CrestState :=
  crestNewInput .CHAR addr s

/-- Translated from `__CrestShort`. -/
def __CrestShort (addr : Nat) (s : CrestState) : Option CrestState :=
  crestNewInput .SHORT addr s

/-- Translated from `__CrestInt`. -/
def __CrestInt (addr : Nat) (s : CrestState) : Option CrestState :=
  crestNewInput .INT addr s

/-- One instrumentation event, as issued by the instrumented program. -/
inductive Event where
  | regGlobal (id : Int) (addr : Nat) (sz : Nat)
  | load (id : Int) (addr : Nat) (ty : type_t) (val : Int)
  | deref (id : Int) (addr : Nat) (ty : type_t) (val : Int)
  | store (id : Int) (addr : Nat)
  | write (id : Int) (addr : Nat)
  | clearStack (id : Int)
  | apply1 (id : Int) (op : Nat) (ty : type_t) (val : Int)
  | apply2 (id : Int) (op : Nat) (ty : type_t) (val : Int)
  | ptrApply2 (id : Int) (op : Nat) (sz : Nat) (val : Int)
  | branch (id : Int) (bid : Int) (b : Bool)
  | call (id : Int) (fid : Nat)
  | ret (id : Int)
  | handleReturn (id : Int) (ty : type_t) (val : Int)
  | inputUChar (addr : Nat)
  | inputUShort (addr : Nat)
  | inputUInt (addr : Nat)
  | inputChar (addr : Nat)
  | inputShort (addr : Nat)
  | inputInt (addr : Nat)
deriving DecidableEq

/-- Dispatch one instrumentation event to its hook. -/
def stepEvent : Event → CrestState → Option CrestState
  | .regGlobal id addr sz, s => some (__CrestRegGlobal id addr sz s)
  | .load id addr ty val, s => some (__CrestLoad id addr ty val s)
  | .deref id addr ty val, s => __CrestDeref id addr ty val s
  | .store id addr, s => __CrestStore id addr s
  | .write id addr, s => __CrestWrite id addr s
  | .clearStack id, s => some (__CrestClearStack id s)
  | .apply1 id op ty val, s => __CrestApply1 id op ty val s
  | .apply2 id op ty val, s => __CrestApply2 id op ty val s
  | .ptrApply2 id op sz val, s => __CrestPtrApply2 id op sz val s
  | .branch id bid b, s => __CrestBranch id bid b s
  | .call id fid, s => some (__CrestCall id fid s)
  | .ret id, s => some (__CrestReturn id s)
  | .handleReturn id ty val, s => some (__CrestHandleReturn id ty val s)
  | .inputUChar addr, s => __CrestUChar addr s
  | .inputUShort addr, s => __CrestUShort addr s
  | .inputUInt addr, s => __CrestUInt addr s
  | .inputChar addr, s => __CrestChar addr s
  | .inputShort addr, s => __CrestShort addr s
  | .inputInt addr, s => __CrestInt addr s

/-- Run a sequence of instrumentation events; a fatal invariant failure
anywhere aborts the run. -/
def runEvents : List Event → CrestState → Option CrestState
  | [], s => some s
  | ev :: evs, s =>
      match stepEvent ev s with
      | none => none
      | some s2 => runEvents evs s2

/-- Is the event one of the symbolic input functions? -/
def Event.isInput : Event → Bool
  | .inputUChar _ | .inputUShort _ | .inputUInt _
  | .inputChar _ | .inputShort _ | .inputInt _ => true
  | _ => false

/-- Number of fresh-input events in a sequence. -/
def countInput (evs : List Event) : Nat :=
  (evs.filter Event.isInput).length

/-- A symbolic-memory operation, used to state properties over arbitrary
sequences of intervening memory updates. -/
inductive MemOp where
  | write (addr : Nat) (ty : type_t) (e : SymbolicExpr)
  | concretize (addr : Nat) (n : Nat)
deriving DecidableEq

/-- Apply one memory operation. -/
def applyMemOp : MemOp → SymbolicMemory → SymbolicMemory
  | .write a ty e, m => SymbolicMemory.write a ty e m
  | .concretize a n, m => SymbolicMemory.concretize a n m

/-- Apply a sequence of memory operations, oldest first. -/
def applyMemOps (ops : List MemOp) (m : SymbolicMemory) : SymbolicMemory :=
  ops.foldl (fun acc o => applyMemOp o acc) m

/-- Translated from `__CrestAtExit` (the file-writing tail): serializes
the execution into a buffer and writes it to the record file, aborting on
an I/O failure (`assert(!out.fail())`).  The I/O outcome is modelled by
the `writeFailed` oracle; `none` is the abort, `some` the bytes of the
completed file. -/
def __CrestAtExit (ex : SymbolicExecution) (writeFailed : Bool) :
    Option (List Nat) :=
  let buff := SymbolicExecution.Serialize ex
  if writeFailed then none else some buff

/-- Is the operation the fresh-input operation? -/
def SIOp.isNewInput : SIOp → Bool
  | .newInput _ _ => true
  | _ => false

/-- A state in which no symbolic expression exists anywhere: every stack
slot is purely concrete, the memory has no bindings, no node has ever
been allocated, and no constraint has been recorded. -/
def concreteOnly (s : InterpState) : Prop :=
  (∀ p ∈ s.stack, p.2 = (none : Option SymbolicExpr)) ∧
  s.mem = [] ∧ s.allocs = 0 ∧ s.constraints = []

/-- The pre-symbolic regime invariant: while the latch is set, the
evaluation stack is empty, the memory has no bindings, and no constraint
has been recorded. -/
def PreInv (s : CrestState) : Prop :=
  s.pre_symbolic = true →
    s.si.stack = [] ∧ s.si.mem = [] ∧ s.si.constraints = []

theorem deserNat4_serNat4 (n : Nat) (h : n < 2 ^ 32) (rest : List Nat) :
    deserNat4 (serNat4 n ++ rest) = some (n, rest) := by
  simp only [serNat4, deserNat4, List.cons_append, List.nil_append,
    Option.some.injEq, Prod.mk.injEq, and_true]
  omega

theorem deserNat8_serNat8 (n : Nat) (h : n < 2 ^ 64) (rest : List Nat) :
    deserNat8 (serNat8 n ++ rest) = some (n, rest) := by
  simp only [serNat8, deserNat8, List.cons_append, List.nil_append,
    Option.some.injEq, Prod.mk.injEq, and_true]
  omega

theorem deserValue_serValue (v : Int) (h : wfVal v = true) (rest : List Nat) :
    deserValue (serValue v ++ rest) = some (v, rest) := by
  simp only [wfVal, Bool.and_eq_true, decide_eq_true_eq] at h
  have hrange : (0 : Int) ≤ v % (2 ^ 64) ∧ v % (2 ^ 64) < 2 ^ 64 := by omega
  have htn : ((v % (2 ^ 64 : Int)).toNat : Int) = v % (2 ^ 64) := by omega
  have hlt : (v % (2 ^ 64 : Int)).toNat < 2 ^ 64 := by omega
  simp only [serValue, deserValue, deserNat8_serNat8 _ hlt, Option.map_some',
    Option.some.injEq, Prod.mk.injEq, and_true]
  split <;> rename_i hcase <;> omega

theorem unOp_ofCode_inverse (o : UnOp) : UnOp.ofCode o.code = some o := by
  cases o <;> rfl

theorem binOp_ofCode_inverse (o : BinOp) : BinOp.ofCode o.code = some o := by
  cases o <;> rfl

theorem cmpOp_ofCode_inverse (o : CmpOp) : CmpOp.ofCode o.code = some o := by
  cases o <;> rfl

theorem deserExpr_serExpr (e : SymbolicExpr) :
    ∀ fuel rest, wfExpr e = true → e.depth ≤ fuel →
      deserExpr fuel (serExpr e ++ rest) = some (e, rest) := by
  induction e with
  | Const sz v =>
      intro fuel rest hwf hd
      simp only [wfExpr, Bool.and_eq_true, decide_eq_true_eq] at hwf
      obtain ⟨hsz, hv⟩ := hwf
      match fuel, hd with
      | f + 1, _ =>
        simp [serExpr, deserExpr, List.append_assoc,
          deserNat4_serNat4 _ hsz, deserValue_serValue _ hv]
  | Basic sz v x =>
      intro fuel rest hwf hd
      simp only [wfExpr, Bool.and_eq_true, decide_eq_true_eq] at hwf
      obtain ⟨⟨hsz, hv⟩, hx⟩ := hwf
      match fuel, hd with
      | f + 1, _ =>
        simp [serExpr, deserExpr, List.append_assoc,
          deserNat4_serNat4 _ hsz, deserValue_serValue _ hv,
          deserNat4_serNat4 _ hx]
  | Unary op sz v c ih =>
      intro fuel rest hwf hd
      simp only [wfExpr, Bool.and_eq_true, decide_eq_true_eq] at hwf
      obtain ⟨⟨hsz, hv⟩, hc⟩ := hwf
      match fuel, hd with
      | f + 1, hd =>
        have hdc : c.depth ≤ f := by
          simp only [SymbolicExpr.depth] at hd; omega
        simp [serExpr, deserExpr, List.append_assoc, unOp_ofCode_inverse,
          deserNat4_serNat4 _ hsz, deserValue_serValue _ hv, ih f rest hc hdc]
  | Bin op sz v l r ihl ihr =>
      intro fuel rest hwf hd
      simp only [wfExpr, Bool.and_eq_true, decide_eq_true_eq] at hwf
      obtain ⟨⟨⟨hsz, hv⟩, hl⟩, hr⟩ := hwf
      match fuel, hd with
      | f + 1, hd =>
        have hdl : l.depth ≤ f := by
          simp only [SymbolicExpr.depth] at hd; omega
        have hdr : r.depth ≤ f := by
          simp only [SymbolicExpr.depth] at hd; omega
        simp [serExpr, deserExpr, List.append_assoc, binOp_ofCode_inverse,
          deserNat4_serNat4 _ hsz, deserValue_serValue _ hv,
          ihl f _ hl hdl, ihr f rest hr hdr]
  | Compare op sz v l r ihl ihr =>
      intro fuel rest hwf hd
      simp only [wfExpr, Bool.and_eq_true, decide_eq_true_eq] at hwf
      obtain ⟨⟨⟨hsz, hv⟩, hl⟩, hr⟩ := hwf
      match fuel, hd with
      | f + 1, hd =>
        have hdl : l.depth ≤ f := by
          simp only [SymbolicExpr.depth] at hd; omega
        have hdr : r.depth ≤ f := by
          simp only [SymbolicExpr.depth] at hd; omega
        simp [serExpr, deserExpr, List.append_assoc, cmpOp_ofCode_inverse,
          deserNat4_serNat4 _ hsz, deserValue_serValue _ hv,
          ihl f _ hl hdl, ihr f rest hr hdr]

/-- Each expression level contributes at least one byte, so the depth is
bounded by the length of the serialized form. -/
theorem depth_le_serExpr_length (e : SymbolicExpr) :
    e.depth ≤ (serExpr e).length := by
  induction e with
  | Const sz v => simp [serExpr, SymbolicExpr.depth]
  | Basic sz v x => simp [serExpr, SymbolicExpr.depth]
  | Unary op sz v c ih =>
      simp only [serExpr, SymbolicExpr.depth, List.length_cons,
        List.length_append]
      omega
  | Bin op sz v l r ihl ihr =>
      simp only [serExpr, SymbolicExpr.depth, List.length_cons,
        List.length_append]
      omega
  | Compare op sz v l r ihl ihr =>
      simp only [serExpr, SymbolicExpr.depth, List.length_cons,
        List.length_append]
      omega

theorem deserCount_serAll {α : Type} (f : α → List Nat)
    (g : List Nat → Option (α × List Nat)) (xs : List α)
    (hrt : ∀ x ∈ xs, ∀ rest, g (f x ++ rest) = some (x, rest)) (rest : List Nat) :
    deserCount g xs.length (serAll f xs ++ rest) = some (xs, rest) := by
  induction xs with
  | nil => simp [serAll, deserCount]
  | cons x xs ih =>
      have hx := hrt x (List.mem_cons_self x xs)
      have hxs : ∀ y ∈ xs, ∀ r, g (f y ++ r) = some (y, r) := fun y hy =>
        hrt y (List.mem_cons_of_mem x hy)
      simp [serAll, deserCount, List.append_assoc, hx, ih hxs]

theorem deserConstraint_serConstraint (fuel : Nat) (c : SymbolicExpr × Bool)
    (hwf : wfExpr c.1 = true) (hd : c.1.depth ≤ fuel) (rest : List Nat) :
    deserConstraint fuel (serConstraint c ++ rest) = some (c, rest) := by
  obtain ⟨e, b⟩ := c
  simp only [serConstraint, List.append_assoc, deserConstraint,
    deserExpr_serExpr e fuel _ hwf hd]
  cases b <;> simp

theorem deserBinding_serBinding (fuel : Nat) (p : Nat × SymbolicExpr)
    (ha : p.1 < 2 ^ 64) (hwf : wfExpr p.2 = true) (hd : p.2.depth ≤ fuel)
    (rest : List Nat) :
    deserBinding fuel (serBinding p ++ rest) = some (p, rest) := by
  obtain ⟨a, e⟩ := p
  simp [serBinding, List.append_assoc, deserBinding,
    deserNat8_serNat8 a ha, deserExpr_serExpr e fuel _ hwf hd]

theorem insertByAddr_perm (p : Nat × SymbolicExpr)
    (l : List (Nat × SymbolicExpr)) : List.Perm (insertByAddr p l) (p :: l) := by
  induction l with
  | nil => simp [insertByAddr]
  | cons q qs ih =>
      simp only [insertByAddr]
      split
      · exact List.Perm.refl _
      · exact ((ih.cons q).trans (List.Perm.swap p q qs))

theorem sortByAddr_perm (l : List (Nat × SymbolicExpr)) : List.Perm (sortByAddr l) l := by
  induction l with
  | nil => simp [sortByAddr]
  | cons p ps ih => exact (insertByAddr_perm p (sortByAddr ps)).trans (ih.cons p)

theorem insertByAddr_sorted (p : Nat × SymbolicExpr)
    (l : List (Nat × SymbolicExpr)) (h : l.Pairwise (fun a b => a.1 ≤ b.1)) :
    (insertByAddr p l).Pairwise (fun a b => a.1 ≤ b.1) := by
  induction l with
  | nil => simp [insertByAddr]
  | cons q qs ih =>
      rw [List.pairwise_cons] at h
      obtain ⟨hq, hqs⟩ := h
      simp only [insertByAddr]
      split
      · rename_i hle
        rw [List.pairwise_cons]
        refine ⟨?_, List.pairwise_cons.mpr ⟨hq, hqs⟩⟩
        intro b hb
        rcases List.mem_cons.mp hb with rfl | hb
        · exact hle
        · exact le_trans hle (hq b hb)
      · rename_i hgt
        rw [List.pairwise_cons]
        refine ⟨?_, ih hqs⟩
        intro b hb
        have := (insertByAddr_perm p qs).mem_iff.mp hb
        rcases List.mem_cons.mp this with rfl | hb2
        · omega
        · exact hq b hb2

theorem sortByAddr_sorted (l : List (Nat × SymbolicExpr)) :
    (sortByAddr l).Pairwise (fun a b => a.1 ≤ b.1) := by
  induction l with
  | nil => simp [sortByAddr]
  | cons p ps ih => exact insertByAddr_sorted p (sortByAddr ps) ih

/-- Sorting a list already sorted by address leaves it unchanged. -/
theorem sortByAddr_eq_self (l : List (Nat × SymbolicExpr))
    (h : l.Pairwise (fun a b => a.1 ≤ b.1)) : sortByAddr l = l := by
  induction l with
  | nil => rfl
  | cons p ps ih =>
      rw [List.pairwise_cons] at h
      obtain ⟨hp, hps⟩ := h
      simp only [sortByAddr, ih hps]
      cases ps with
      | nil => rfl
      | cons q qs =>
          simp only [insertByAddr, if_pos (hp q (List.mem_cons_self q qs))]

/-- A list pairwise-ordered by `≤` on addresses whose addresses are
distinct is pairwise-ordered strictly. -/
theorem pairwise_lt_of_le_nodup (l : SymbolicMemory)
    (hle : l.Pairwise (fun a b => a.1 ≤ b.1))
    (hnd : (l.map Prod.fst).Nodup) :
    l.Pairwise (fun a b => a.1 < b.1) := by
  have hne : l.Pairwise (fun a b : Nat × SymbolicExpr => a.1 ≠ b.1) :=
    List.pairwise_map.mp hnd
  exact (hle.and hne).imp fun h => lt_of_le_of_ne h.1 h.2

/-- Two binding lists with distinct addresses and the same binding set
sort to the same list. -/
theorem sortByAddr_eq_of_same_set (m1 m2 : SymbolicMemory)
    (h1 : (m1.map Prod.fst).Nodup) (h2 : (m2.map Prod.fst).Nodup)
    (hset : ∀ p, p ∈ m1 ↔ p ∈ m2) : sortByAddr m1 = sortByAddr m2 := by
  have hnd1 : m1.Nodup := h1.of_map
  have hnd2 : m2.Nodup := h2.of_map
  have hperm : List.Perm m1 m2 := by
    refine List.perm_of_nodup_nodup_toFinset_eq hnd1 hnd2 ?_
    ext p
    simp only [List.mem_toFinset]
    exact hset p
  have hp : List.Perm (sortByAddr m1) (sortByAddr m2) :=
    ((sortByAddr_perm m1).trans hperm).trans (sortByAddr_perm m2).symm
  have hs1 : (sortByAddr m1).Pairwise (fun a b => a.1 < b.1) :=
    pairwise_lt_of_le_nodup _ (sortByAddr_sorted m1)
      (((sortByAddr_perm m1).map Prod.fst).nodup_iff.mpr h1)
  have hs2 : (sortByAddr m2).Pairwise (fun a b => a.1 < b.1) :=
    pairwise_lt_of_le_nodup _ (sortByAddr_sorted m2)
      (((sortByAddr_perm m2).map Prod.fst).nodup_iff.mpr h2)
  haveI : IsAntisymm (Nat × SymbolicExpr) (fun a b => a.1 < b.1) :=
    ⟨fun a b hab hba => absurd hba (by omega)⟩
  exact List.eq_of_perm_of_sorted hp hs1 hs2

theorem addrAscending_pairwise (m : SymbolicMemory)
    (h : addrAscending m = true) : m.Pairwise (fun a b => a.1 < b.1) := by
  induction m with
  | nil => simp
  | cons p t ih =>
      cases t with
      | nil => simp
      | cons q r =>
          simp only [addrAscending, Bool.and_eq_true, decide_eq_true_eq] at h
          have htail := ih h.2
          rw [List.pairwise_cons]
          refine ⟨?_, htail⟩
          intro b hb
          rcases List.mem_cons.mp hb with rfl | hb
          · exact h.1
          · exact lt_trans h.1 ((List.pairwise_cons.mp htail).1 b hb)

/-- An item's encoding is no longer than the whole sequence encoding. -/
theorem length_le_serAll {α : Type} (f : α → List Nat) (xs : List α)
    (x : α) (hx : x ∈ xs) : (f x).length ≤ (serAll f xs).length := by
  induction xs with
  | nil => cases hx
  | cons y ys ih =>
      simp only [serAll, List.length_append]
      rcases List.mem_cons.mp hx with rfl | hx2
      · omega
      · have := ih hx2; omega

theorem deserialize_Serialize (ex : SymbolicExecution) (h : wfEx ex = true) :
    SymbolicExecution.deserialize (SymbolicExecution.Serialize ex) = some ex := by
  obtain ⟨vs, cs, bs⟩ := ex
  simp only [wfEx, Bool.and_eq_true, decide_eq_true_eq, List.all_eq_true] at h
  obtain ⟨⟨⟨⟨⟨⟨hv, hnv⟩, hc⟩, hnc⟩, hb⟩, hnb⟩, hasc⟩ := h
  have hsort : sortByAddr bs = bs :=
    sortByAddr_eq_self bs ((addrAscending_pairwise bs hasc).imp le_of_lt)
  have hL : SymbolicExecution.Serialize ⟨vs, cs, bs⟩ =
      serNat4 vs.length ++ (serAll serValue vs ++ (serNat4 cs.length ++
        (serAll serConstraint cs ++ (serNat4 bs.length ++
          serAll serBinding bs)))) := by
    simp [SymbolicExecution.Serialize, SymbolicMemory.Serialize, hsort,
      List.append_assoc]
  set L := SymbolicExecution.Serialize ⟨vs, cs, bs⟩ with hLdef
  have hfuel_c : ∀ c ∈ cs, c.1.depth ≤ L.length := by
    intro c hcmem
    have h1 : c.1.depth ≤ (serExpr c.1).length := depth_le_serExpr_length c.1
    have h2 : (serExpr c.1).length ≤ (serConstraint c).length := by
      simp [serConstraint]
    have h3 : (serConstraint c).length ≤ (serAll serConstraint cs).length :=
      length_le_serAll _ cs c hcmem
    have h4 : (serAll serConstraint cs).length ≤ L.length := by
      rw [hL]; simp only [List.length_append]; omega
    omega
  have hfuel_b : ∀ p ∈ bs, p.2.depth ≤ L.length := by
    intro p hpmem
    have h1 : p.2.depth ≤ (serExpr p.2).length := depth_le_serExpr_length p.2
    have h2 : (serExpr p.2).length ≤ (serBinding p).length := by
      simp [serBinding]
    have h3 : (serBinding p).length ≤ (serAll serBinding bs).length :=
      length_le_serAll _ bs p hpmem
    have h4 : (serAll serBinding bs).length ≤ L.length := by
      rw [hL]; simp only [List.length_append]; omega
    omega
  have e1 : ∀ rest, deserNat4 (serNat4 vs.length ++ rest) =
      some (vs.length, rest) := deserNat4_serNat4 vs.length hnv
  have e2 : ∀ rest, deserCount deserValue vs.length
      (serAll serValue vs ++ rest) = some (vs, rest) :=
    deserCount_serAll serValue deserValue vs
      (fun x hx rest => deserValue_serValue x (hv x hx) rest)
  have e3 : ∀ rest, deserNat4 (serNat4 cs.length ++ rest) =
      some (cs.length, rest) := deserNat4_serNat4 cs.length hnc
  have e4 : ∀ rest, deserCount (deserConstraint L.length) cs.length
      (serAll serConstraint cs ++ rest) = some (cs, rest) :=
    deserCount_serAll serConstraint (deserConstraint L.length) cs
      (fun c hcm rest =>
        deserConstraint_serConstraint L.length c (hc c hcm) (hfuel_c c hcm) rest)
  have e5 : ∀ rest, deserNat4 (serNat4 bs.length ++ rest) =
      some (bs.length, rest) := deserNat4_serNat4 bs.length hnb
  have e6 : deserCount (deserBinding L.length) bs.length
      (serAll serBinding bs ++ []) = some (bs, []) :=
    deserCount_serAll serBinding (deserBinding L.length) bs
      (fun p hpm rest =>
        deserBinding_serBinding L.length p (hb p hpm).1 (hb p hpm).2
          (hfuel_b p hpm) rest) []
  rw [List.append_nil] at e6
  rw [SymbolicExecution.deserialize]
  nth_rewrite 1 [hL]
  simp only [e1, e2, e3, e4, e5, e6, List.isEmpty_nil, if_true]

theorem memLookup_memWrite_self (a : Nat) (e : SymbolicExpr)
    (m : SymbolicMemory) : memLookup a (memWrite a e m) = some e := by
  induction m with
  | nil => simp [memWrite, memLookup]
  | cons p ps ih =>
      simp only [memWrite]
      split
      · simp [memLookup]
      · rename_i hne
        simp only [memLookup, if_neg hne, ih]

theorem memLookup_memWrite_ne (a a2 : Nat) (hne : a2 ≠ a) (e : SymbolicExpr)
    (m : SymbolicMemory) : memLookup a (memWrite a2 e m) = memLookup a m := by
  induction m with
  | nil => simp [memWrite, memLookup, hne]
  | cons p ps ih =>
      simp only [memWrite]
      split
      · rename_i hp
        simp [memLookup, hp, hne]
      · simp only [memLookup, ih]

theorem memLookup_filter (q : Nat × SymbolicExpr → Bool) (m : SymbolicMemory)
    (a : Nat) (e : SymbolicExpr) (hl : memLookup a m = some e)
    (hq : q (a, e) = true) : memLookup a (m.filter q) = some e := by
  induction m with
  | nil => simp [memLookup] at hl
  | cons p ps ih =>
      simp only [memLookup] at hl
      by_cases hpa : p.1 = a
      · rw [if_pos hpa] at hl
        injection hl with he
        have hp : p = (a, e) := Prod.ext hpa he
        subst hp
        simp [List.filter, hq, memLookup]
      · rw [if_neg hpa] at hl
        simp only [List.filter]
        cases hqp : q p
        · exact ih hl
        · simp only [memLookup, if_neg hpa]
          exact ih hl

/-- The binding written at `a` survives a sequence of memory operations
none of which writes at `a` or concretizes a range overlapping the
binding's byte region. -/
theorem memLookup_applyMemOps (a : Nat) (e : SymbolicExpr) (ops : List MemOp) :
    ∀ m, memLookup a m = some e →
    (∀ a2 ty2 e2, MemOp.write a2 ty2 e2 ∈ ops → a2 ≠ a) →
    (∀ a2 n, MemOp.concretize a2 n ∈ ops →
      ¬(a < a2 + n ∧ a2 < a + e.size)) →
    memLookup a (applyMemOps ops m) = some e := by
  induction ops with
  | nil => intro m hl _ _; simpa [applyMemOps] using hl
  | cons op ops ih =>
      intro m hl hw hc
      have hstep : memLookup a (applyMemOp op m) = some e := by
        cases op with
        | write a2 ty2 e2 =>
            have hne : a2 ≠ a := hw a2 ty2 e2 (List.mem_cons_self _ _)
            rw [applyMemOp, SymbolicMemory.write, memLookup_memWrite_ne a a2 hne]
            exact hl
        | concretize a2 n =>
            have hdis := hc a2 n (List.mem_cons_self _ _)
            rw [applyMemOp, SymbolicMemory.concretize]
            refine memLookup_filter _ m a e hl ?_
            simp only [Bool.not_eq_true']
            rw [Bool.and_eq_false_iff]
            by_cases h1 : a < a2 + n
            · right
              simp only [decide_eq_false_iff_not]
              intro h2
              exact hdis ⟨h1, h2⟩
            · left
              simp [h1]
      have hw2 : ∀ a2 ty2 e2, MemOp.write a2 ty2 e2 ∈ ops → a2 ≠ a :=
        fun a2 ty2 e2 hm => hw a2 ty2 e2 (List.mem_cons_of_mem _ hm)
      have hc2 : ∀ a2 n, MemOp.concretize a2 n ∈ ops →
          ¬(a < a2 + n ∧ a2 < a + e.size) :=
        fun a2 n hm => hc a2 n (List.mem_cons_of_mem _ hm)
      have : applyMemOps (op :: ops) m = applyMemOps ops (applyMemOp op m) := rfl
      rw [this]
      exact ih (applyMemOp op m) hstep hw2 hc2

/-- C1: at a `Branch` event the interpreter pops exactly one pending
evaluation value; a symbolic value appends (expression, taken direction)
at the end of the constraint sequence, a purely concrete value records
only the branch identity, and any pending-value count other than one is a
fatal invariant failure. -/
theorem C1_branch_pops_one (s : InterpState) (id bid : Int) (b : Bool) :
    (∀ v oe, s.stack = [(v, oe)] →
      SymbolicInterpreter.Branch id bid b s =
        some { s with
          stack := [],
          branches := s.branches ++ [bid],
          constraints := s.constraints ++
            (match oe with | some e => [(e, b)] | none => []) }) ∧
    (s.stack.length ≠ 1 → SymbolicInterpreter.Branch id bid b s = none) := by
  constructor
  · intro v oe hstack
    rw [SymbolicInterpreter.Branch, hstack]
  · intro hlen
    rw [SymbolicInterpreter.Branch]
    match hst : s.stack with
    | [] => rfl
    | [(v, oe)] => rw [hst] at hlen; simp at hlen
    | (v1, oe1) :: (v2, oe2) :: rest => rfl

/-- Witness for C1: a symbolic one-value stack appends the constraint and
empties the stack; a two-value stack is a fatal failure. -/
theorem C1_witness :
    SymbolicInterpreter.Branch 1 7 true
      ⟨[((5 : Int), some (.Const 4 5))], [], [], 0, [], [], [], 1⟩ =
      some ⟨[], [], [], 0, [], [(.Const 4 5, true)], [7], 1⟩ ∧
    SymbolicInterpreter.Branch 1 7 true
      ⟨[((5 : Int), none), ((6 : Int), none)], [], [], 0, [], [], [], 0⟩ =
      none := by
  constructor
  · exact (C1_branch_pops_one
      ⟨[((5 : Int), some (.Const 4 5))], [], [], 0, [], [], [], 1⟩ 1 7 true).1
      5 (some (.Const 4 5)) rfl
  · exact (C1_branch_pops_one
      ⟨[((5 : Int), none), ((6 : Int), none)], [], [], 0, [], [], [], 0⟩
      1 7 true).2 (by decide)

/-- C2: deserializing the serialization of an execution record yields an
equal record, and re-serializing the deserialized record yields a
byte-identical sequence (for well-formed records: values in `value_t`
range, counts within the length prefixes, bindings in canonical order). -/
theorem C2_serialize_roundtrip (ex : SymbolicExecution) (h : wfEx ex = true) :
    SymbolicExecution.deserialize (SymbolicExecution.Serialize ex) = some ex ∧
    ∀ ex2, SymbolicExecution.deserialize (SymbolicExecution.Serialize ex) =
        some ex2 →
      SymbolicExecution.Serialize ex2 = SymbolicExecution.Serialize ex := by
  refine ⟨deserialize_Serialize ex h, ?_⟩
  intro ex2 h2
  rw [deserialize_Serialize ex h] at h2
  injection h2 with h3
  rw [h3]

/-- Witness for C2: a record with two inputs, three constraints mixing
comparison, binary and unary operators, and two memory bindings
round-trips. -/
theorem C2_witness :
    wfEx ⟨[5, -3],
      [(.Compare .S_GT 4 1 (.Basic 4 5 0) (.Const 4 10), true),
       (.Bin .ADD 4 2 (.Basic 4 5 0) (.Basic 4 (-3) 1), false),
       (.Unary .LOGICAL_NOT 1 0 (.Basic 1 5 0), true)],
      [(16, .Basic 4 5 0), (32, .Unary .SIGNED_CAST 4 (-3) (.Basic 4 (-3) 1))]⟩
      = true ∧
    SymbolicExecution.deserialize (SymbolicExecution.Serialize
      ⟨[5, -3],
       [(.Compare .S_GT 4 1 (.Basic 4 5 0) (.Const 4 10), true),
        (.Bin .ADD 4 2 (.Basic 4 5 0) (.Basic 4 (-3) 1), false),
        (.Unary .LOGICAL_NOT 1 0 (.Basic 1 5 0), true)],
       [(16, .Basic 4 5 0), (32, .Unary .SIGNED_CAST 4 (-3) (.Basic 4 (-3) 1))]⟩) =
      some ⟨[5, -3],
       [(.Compare .S_GT 4 1 (.Basic 4 5 0) (.Const 4 10), true),
        (.Bin .ADD 4 2 (.Basic 4 5 0) (.Basic 4 (-3) 1), false),
        (.Unary .LOGICAL_NOT 1 0 (.Basic 1 5 0), true)],
       [(16, .Basic 4 5 0), (32, .Unary .SIGNED_CAST 4 (-3) (.Basic 4 (-3) 1))]⟩ := by
  refine ⟨by decide, ?_⟩
  exact (C2_serialize_roundtrip _ (by decide)).1

/-- C4 counterexample: the claim's premise "no intervening concretize
covering `a`" is not sufficient.  A concretize of the range `[12, 14)`
does not cover the written address `10`, yet it removes the 4-byte
binding written at `10` (the range overlaps the binding's bytes), so the
subsequent read does not return the written expression. -/
theorem C4_counterexample :
    (¬ ((12 : Nat) ≤ 10 ∧ (10 : Nat) < 12 + 2)) ∧
    SymbolicMemory.read 10 .INT 5
        (applyMemOps [.concretize 12 2]
          (SymbolicMemory.write 10 .INT (.Basic 4 5 0) [])) ≠
      SymbolicExpr.Basic 4 5 0 := by decide

/-- C4 (amended): after `write(a, ty, e)` with a matching width, a
sequence of operations containing no write at `a` and no concretize whose
range overlaps the written region `[a, a + e.size)` preserves the
binding, and `read(a, ty, v)` returns the written expression itself. -/
theorem C4_write_read (a : Nat) (ty : type_t) (e : SymbolicExpr) (v : Int)
    (m : SymbolicMemory) (ops : List MemOp)
    (hsz : e.size = sizeOfType ty)
    (hw : ∀ a2 ty2 e2, MemOp.write a2 ty2 e2 ∈ ops → a2 ≠ a)
    (hc : ∀ a2 n, MemOp.concretize a2 n ∈ ops →
      ¬(a < a2 + n ∧ a2 < a + e.size)) :
    SymbolicMemory.read a ty v
      (applyMemOps ops (SymbolicMemory.write a ty e m)) = e := by
  have hl : memLookup a (SymbolicMemory.write a ty e m) = some e :=
    memLookup_memWrite_self a e m
  have hfinal := memLookup_applyMemOps a e ops _ hl hw hc
  rw [SymbolicMemory.read, hfinal]
  simp [hsz]

/-- Witness for C4 (amended): a binding at `10` survives a write at `20`
and a concretize of `[30, 34)`, and reads back as the written leaf. -/
theorem C4_witness :
    SymbolicMemory.read 10 .INT 5
      (applyMemOps [.write 20 .INT (.Const 4 7), .concretize 30 4]
        (SymbolicMemory.write 10 .INT (.Basic 4 5 0) [])) =
      SymbolicExpr.Basic 4 5 0 := by
  refine C4_write_read 10 .INT (.Basic 4 5 0) 5 []
    [.write 20 .INT (.Const 4 7), .concretize 30 4] (by decide) ?_ ?_
  · intro a2 ty2 e2 hm
    rcases List.mem_cons.mp hm with heq | hm2
    · injection heq with h1 h2 h3
      omega
    · rcases List.mem_cons.mp hm2 with heq | hm3
      · exact absurd heq (by simp)
      · cases hm3
  · intro a2 n hm
    rcases List.mem_cons.mp hm with heq | hm2
    · exact absurd heq (by simp)
    · rcases List.mem_cons.mp hm2 with heq | hm3
      · injection heq with h1 h2
        subst h1; subst h2
        decide
      · cases hm3

/-- C6: serialization of the symbolic memory depends only on the binding
set — two memories holding the same bindings (with distinct addresses, as
in the hash map) serialize to identical bytes regardless of iteration
order, because serialization sorts by address. -/
theorem C6_serialize_deterministic (m1 m2 : SymbolicMemory)
    (h1 : (m1.map Prod.fst).Nodup) (h2 : (m2.map Prod.fst).Nodup)
    (hset : ∀ p, p ∈ m1 ↔ p ∈ m2) :
    SymbolicMemory.Serialize m1 = SymbolicMemory.Serialize m2 := by
  rw [SymbolicMemory.Serialize, SymbolicMemory.Serialize,
    sortByAddr_eq_of_same_set m1 m2 h1 h2 hset]

/-- Witness for C6: two insertion orders of the same two bindings
serialize identically. -/
theorem C6_witness :
    SymbolicMemory.Serialize [(2, .Const 1 0), (1, .Basic 1 5 0)] =
    SymbolicMemory.Serialize [(1, .Basic 1 5 0), (2, .Const 1 0)] := by
  refine C6_serialize_deterministic _ _ (by decide) (by decide) ?_
  intro p
  simp only [List.mem_cons, List.not_mem_nil, or_false]
  exact or_comm

/-- C8 counterexample: the unary operator repertoire of the expression
representation (`ops::unary_op_t` in `basic_types.h`) does not contain
five operators. -/
theorem C8_counterexample : Fintype.card ops.unary_op_t ≠ 5 := by decide

/-- C8 (amended): the unary repertoire of the expression representation
contains exactly four operators — negate, logical-not, bitwise-not and a
single merged cast — while the instrumentation operator table maps the
five unary instrumentation opcodes to five distinct operators of the
trunk operator set (including separate unsigned and signed casts). -/
theorem C8_unary_repertoire :
    Fintype.card ops.unary_op_t = 4 ∧
    (∀ o : ops.unary_op_t,
      o = .NEGATE ∨ o = .LOGICAL_NOT ∨ o = .BITWISE_NOT ∨ o = .CAST) ∧
    kOpTable.length = 32 ∧
    (List.range 5).map (fun i => kOpTable.getD (crestNEGATE + i) .CONCRETE) =
      [.NEGATE, .BITWISE_NOT, .LOGICAL_NOT, .UNSIGNED_CAST, .SIGNED_CAST] ∧
    ((List.range 5).map
      (fun i => kOpTable.getD (crestNEGATE + i) .CONCRETE)).Nodup := by
  decide

/-- C9: if writing the execution record fails, the at-exit hook aborts,
and a successful at-exit run always produces exactly the complete
serialized record — never a truncated or corrupt one. -/
theorem C9_atexit_write_failure (ex : SymbolicExecution) (writeFailed : Bool) :
    (writeFailed = true → __CrestAtExit ex writeFailed = none) ∧
    (∀ out, __CrestAtExit ex writeFailed = some out →
      out = SymbolicExecution.Serialize ex ∧ writeFailed = false) := by
  constructor
  · intro hw
    rw [__CrestAtExit, hw]
    rfl
  · intro out hout
    rw [__CrestAtExit] at hout
    cases hwf : writeFailed with
    | true => rw [hwf] at hout; simp at hout
    | false =>
        rw [hwf] at hout
        simp only [if_neg Bool.false_ne_true] at hout
        injection hout with h1
        exact ⟨h1.symm, rfl⟩

/-- Witness for C9: a failed write aborts; a successful write emits the
complete serialization of the empty record. -/
theorem C9_witness :
    __CrestAtExit ⟨[], [], []⟩ true = none ∧
    __CrestAtExit ⟨[], [], []⟩ false =
      some (SymbolicExecution.Serialize ⟨[], [], []⟩) := by
  refine ⟨(C9_atexit_write_failure ⟨[], [], []⟩ true).1 rfl, ?_⟩
  rfl

/-- Any interpreter operation other than `NewInput` preserves the
concrete-only invariant: no node gets allocated and no constraint gets
recorded when no operand carries a symbolic expression. -/
theorem stepSI_concrete (op : SIOp) (s s2 : InterpState)
    (hni : op.isNewInput = false)
    (hc : concreteOnly s) (hstep : stepSI op s = some s2) :
    concreteOnly s2 := by
  obtain ⟨hstk, hmem, hall, hcons⟩ := hc
  cases op with
  | alloc id addr sz =>
      injection hstep with h
      subst h
      exact ⟨hstk, hmem, hall, hcons⟩
  | load id addr ty val =>
      injection hstep with h
      subst h
      refine ⟨?_, hmem, hall, hcons⟩
      intro p hp
      simp only [SymbolicInterpreter.Load] at hp
      rcases List.mem_cons.mp hp with rfl | hp2
      · rw [hmem]; rfl
      · exact hstk p hp2
  | deref id addr ty val =>
      rw [stepSI, SymbolicInterpreter.Deref] at hstep
      split at hstep
      · exact absurd hstep (by simp)
      · rename_i v pe rest heq
        injection hstep with h
        subst h
        refine ⟨?_, hmem, hall, hcons⟩
        intro p hp
        rcases List.mem_cons.mp hp with rfl | hp2
        · have hpe : pe = none := hstk (v, pe) (by rw [heq]; exact List.mem_cons_self _ _)
          subst hpe
          rw [hmem]; rfl
        · exact hstk p (by rw [heq]; exact List.mem_cons_of_mem _ hp2)
  | store id addr =>
      rw [stepSI, SymbolicInterpreter.Store] at hstep
      split at hstep
      · exact absurd hstep (by simp)
      · rename_i v e rest heq
        have := hstk (v, some e) (by rw [heq]; exact List.mem_cons_self _ _)
        simp at this
      · rename_i v rest heq
        injection hstep with h
        subst h
        refine ⟨?_, ?_, hall, hcons⟩
        · intro p hp
          exact hstk p (by rw [heq]; exact List.mem_cons_of_mem _ hp)
        · rw [hmem]; rfl
  | write id addr =>
      rw [stepSI, SymbolicInterpreter.Write, SymbolicInterpreter.Store] at hstep
      split at hstep
      · exact absurd hstep (by simp)
      · rename_i v e rest heq
        have := hstk (v, some e) (by rw [heq]; exact List.mem_cons_self _ _)
        simp at this
      · rename_i v rest heq
        injection hstep with h
        subst h
        refine ⟨?_, ?_, hall, hcons⟩
        · intro p hp
          exact hstk p (by rw [heq]; exact List.mem_cons_of_mem _ hp)
        · rw [hmem]; rfl
  | clearStack id =>
      injection hstep with h
      subst h
      exact ⟨fun p hp => absurd hp (List.not_mem_nil p), hmem, hall, hcons⟩
  | applyUn id uop ty val =>
      rw [stepSI, SymbolicInterpreter.ApplyUnaryOp] at hstep
      split at hstep
      · exact absurd hstep (by simp)
      · rename_i v e rest heq
        have := hstk (v, some e) (by rw [heq]; exact List.mem_cons_self _ _)
        simp at this
      · rename_i v rest heq
        injection hstep with h
        subst h
        refine ⟨?_, hmem, hall, hcons⟩
        intro p hp
        rcases List.mem_cons.mp hp with rfl | hp2
        · rfl
        · exact hstk p (by rw [heq]; exact List.mem_cons_of_mem _ hp2)
  | applyBin id bop ty val =>
      rw [stepSI, SymbolicInterpreter.ApplyBinaryOp] at hstep
      split at hstep
      · rename_i v2 oe2 v1 oe1 rest heq
        have h2 : oe2 = none := hstk (v2, oe2) (by rw [heq]; exact List.mem_cons_self _ _)
        have h1 : oe1 = none := hstk (v1, oe1)
          (by rw [heq]; exact List.mem_cons_of_mem _ (List.mem_cons_self _ _))
        subst h1; subst h2
        injection hstep with h
        subst h
        refine ⟨?_, hmem, by simpa [SymbolicInterpreter.mkBin] using hall, hcons⟩
        intro p hp
        rcases List.mem_cons.mp hp with rfl | hp2
        · rfl
        · exact hstk p
            (by rw [heq]
                exact List.mem_cons_of_mem _ (List.mem_cons_of_mem _ hp2))
      · exact absurd hstep (by simp)
  | applyCmp id cop ty val =>
      rw [stepSI, SymbolicInterpreter.ApplyCompareOp] at hstep
      split at hstep
      · rename_i v2 oe2 v1 oe1 rest heq
        have h2 : oe2 = none := hstk (v2, oe2) (by rw [heq]; exact List.mem_cons_self _ _)
        have h1 : oe1 = none := hstk (v1, oe1)
          (by rw [heq]; exact List.mem_cons_of_mem _ (List.mem_cons_self _ _))
        subst h1; subst h2
        injection hstep with h
        subst h
        refine ⟨?_, hmem, by simpa [SymbolicInterpreter.mkCmp] using hall, hcons⟩
        intro p hp
        rcases List.mem_cons.mp hp with rfl | hp2
        · rfl
        · exact hstk p
            (by rw [heq]
                exact List.mem_cons_of_mem _ (List.mem_cons_of_mem _ hp2))
      · exact absurd hstep (by simp)
  | applyPtr id bop sz val =>
      rw [stepSI, SymbolicInterpreter.ApplyBinPtrOp] at hstep
      split at hstep
      · rename_i v2 oe2 v1 oe1 rest heq
        have h2 : oe2 = none := hstk (v2, oe2) (by rw [heq]; exact List.mem_cons_self _ _)
        have h1 : oe1 = none := hstk (v1, oe1)
          (by rw [heq]; exact List.mem_cons_of_mem _ (List.mem_cons_self _ _))
        subst h1; subst h2
        injection hstep with h
        subst h
        refine ⟨?_, hmem, by simpa [SymbolicInterpreter.mkBin] using hall, hcons⟩
        intro p hp
        rcases List.mem_cons.mp hp with rfl | hp2
        · rfl
        · exact hstk p
            (by rw [heq]
                exact List.mem_cons_of_mem _ (List.mem_cons_of_mem _ hp2))
      · exact absurd hstep (by simp)
  | applyConc id val =>
      rw [stepSI, SymbolicInterpreter.ApplyConcrete2] at hstep
      split at hstep
      · rename_i p1 p2 rest heq
        injection hstep with h
        subst h
        refine ⟨?_, hmem, hall, hcons⟩
        intro p hp
        rcases List.mem_cons.mp hp with rfl | hp2
        · rfl
        · exact hstk p
            (by rw [heq]
                exact List.mem_cons_of_mem _ (List.mem_cons_of_mem _ hp2))
      · exact absurd hstep (by simp)
  | branch id bid b =>
      rw [stepSI, SymbolicInterpreter.Branch] at hstep
      split at hstep
      · rename_i v oe heq
        have hoe : oe = none := hstk (v, oe) (by rw [heq]; exact List.mem_cons_self _ _)
        subst hoe
        injection hstep with h
        subst h
        exact ⟨fun p hp => absurd hp (List.not_mem_nil p), hmem, hall, by simpa using hcons⟩
      · exact absurd hstep (by simp)
  | call id fid =>
      injection hstep with h
      subst h
      exact ⟨fun p hp => absurd hp (List.not_mem_nil p), hmem, hall, hcons⟩
  | ret id =>
      injection hstep with h
      subst h
      exact ⟨hstk, hmem, hall, hcons⟩
  | handleReturn id ty val =>
      injection hstep with h
      subst h
      rw [SymbolicInterpreter.HandleReturn]
      split
      · rename_i heq
        refine ⟨?_, hmem, hall, hcons⟩
        intro p hp
        rcases List.mem_cons.mp hp with rfl | hp2
        · rfl
        · cases hp2
      · exact ⟨hstk, hmem, hall, hcons⟩
  | newInput ty addr =>
      simp [SIOp.isNewInput] at hni

/-- The concrete-only invariant is preserved by any run without a
fresh-input operation. -/
theorem runSI_concrete (ops : List SIOp) :
    ∀ s0 s, (∀ op ∈ ops, op.isNewInput = false) → concreteOnly s0 →
      runSI ops s0 = some s → concreteOnly s := by
  induction ops with
  | nil =>
      intro s0 s _ hc hrun
      injection hrun with h
      subst h
      exact hc
  | cons op ops ih =>
      intro s0 s hni hc hrun
      rw [runSI] at hrun
      split at hrun
      · exact absurd hrun (by simp)
      · rename_i s1 hstep
        exact ih s1 s (fun o ho => hni o (List.mem_cons_of_mem _ ho))
          (stepSI_concrete op s0 s1 (hni op (List.mem_cons_self _ _)) hc hstep)
          hrun

/-- C7: a run of interpreter operations in which no operand ever carries
a symbolic expression (no fresh-input operation occurs, the sole origin
of symbolic leaves) allocates no expression node and records no
expression-carrying constraint entry — branch identities only. -/
theorem C7_concrete_fast_path (inp : List Int) (ops : List SIOp)
    (s : InterpState)
    (hni : ∀ op ∈ ops, op.isNewInput = false)
    (hrun : runSI ops (initInterp inp) = some s) :
    s.allocs = 0 ∧ s.constraints = [] := by
  have hc0 : concreteOnly (initInterp inp) :=
    ⟨fun p hp => absurd hp (List.not_mem_nil p), rfl, rfl, rfl⟩
  have h := runSI_concrete ops (initInterp inp) s hni hc0 hrun
  exact ⟨h.2.2.1, h.2.2.2⟩

/-- Witness for C7: two loads, an addition and a branch on a purely
concrete run allocate nothing and leave the constraint sequence empty. -/
theorem C7_witness :
    runSI [.load 1 4 .INT 7, .load 2 8 .INT 9, .applyBin 3 .ADD .INT 16,
           .branch 4 10 true] (initInterp []) =
      some ⟨[], [], [], 0, [], [], [10], 0⟩ ∧
    (⟨[], [], [], 0, [], [], [10], 0⟩ : InterpState).allocs = 0 ∧
    (⟨[], [], [], 0, [], [], [10], 0⟩ : InterpState).constraints = [] := by
  refine ⟨by decide, ?_⟩
  exact C7_concrete_fast_path []
    [.load 1 4 .INT 7, .load 2 8 .INT 9, .applyBin 3 .ADD .INT 16,
     .branch 4 10 true]
    ⟨[], [], [], 0, [], [], [10], 0⟩ (by decide) (by decide)

/-- No interpreter operation other than `NewInput` changes the count of
issued inputs or the issued-identifier sequence. -/
theorem stepSI_fields (op : SIOp) (si si2 : InterpState)
    (hni : op.isNewInput = false) (hstep : stepSI op si = some si2) :
    si2.ninputs = si.ninputs ∧ si2.issued = si.issued := by
  cases op with
  | alloc id addr sz => injection hstep with h; subst h; exact ⟨rfl, rfl⟩
  | load id addr ty val => injection hstep with h; subst h; exact ⟨rfl, rfl⟩
  | deref id addr ty val =>
      rw [stepSI, SymbolicInterpreter.Deref] at hstep
      split at hstep
      · exact absurd hstep (by simp)
      · injection hstep with h; subst h; exact ⟨rfl, rfl⟩
  | store id addr =>
      rw [stepSI, SymbolicInterpreter.Store] at hstep
      split at hstep
      · exact absurd hstep (by simp)
      · injection hstep with h; subst h; exact ⟨rfl, rfl⟩
      · injection hstep with h; subst h; exact ⟨rfl, rfl⟩
  | write id addr =>
      rw [stepSI, SymbolicInterpreter.Write, SymbolicInterpreter.Store] at hstep
      split at hstep
      · exact absurd hstep (by simp)
      · injection hstep with h; subst h; exact ⟨rfl, rfl⟩
      · injection hstep with h; subst h; exact ⟨rfl, rfl⟩
  | clearStack id => injection hstep with h; subst h; exact ⟨rfl, rfl⟩
  | applyUn id uop ty val =>
      rw [stepSI, SymbolicInterpreter.ApplyUnaryOp] at hstep
      split at hstep
      · exact absurd hstep (by simp)
      · injection hstep with h; subst h; exact ⟨rfl, rfl⟩
      · injection hstep with h; subst h; exact ⟨rfl, rfl⟩
  | applyBin id bop ty val =>
      rw [stepSI, SymbolicInterpreter.ApplyBinaryOp] at hstep
      split at hstep
      · injection hstep with h; subst h; exact ⟨rfl, rfl⟩
      · exact absurd hstep (by simp)
  | applyCmp id cop ty val =>
      rw [stepSI, SymbolicInterpreter.ApplyCompareOp] at hstep
      split at hstep
      · injection hstep with h; subst h; exact ⟨rfl, rfl⟩
      · exact absurd hstep (by simp)
  | applyPtr id bop sz val =>
      rw [stepSI, SymbolicInterpreter.ApplyBinPtrOp] at hstep
      split at hstep
      · injection hstep with h; subst h; exact ⟨rfl, rfl⟩
      · exact absurd hstep (by simp)
  | applyConc id val =>
      rw [stepSI, SymbolicInterpreter.ApplyConcrete2] at hstep
      split at hstep
      · injection hstep with h; subst h; exact ⟨rfl, rfl⟩
      · exact absurd hstep (by simp)
  | branch id bid b =>
      rw [stepSI, SymbolicInterpreter.Branch] at hstep
      split at hstep
      · injection hstep with h; subst h; exact ⟨rfl, rfl⟩
      · exact absurd hstep (by simp)
  | call id fid => injection hstep with h; subst h; exact ⟨rfl, rfl⟩
  | ret id => injection hstep with h; subst h; exact ⟨rfl, rfl⟩
  | handleReturn id ty val =>
      injection hstep with h
      subst h
      rw [SymbolicInterpreter.HandleReturn]
      split
      · exact ⟨rfl, rfl⟩
      · exact ⟨rfl, rfl⟩
  | newInput ty addr => simp [SIOp.isNewInput] at hni

/-- Per-event evolution of the issued-identifier sequence: a fresh-input
event issues exactly the identifier equal to the current input count; no
other event touches the count or the sequence. -/
theorem stepEvent_issued (ev : Event) (s s2 : CrestState)
    (hstep : stepEvent ev s = some s2) :
    (ev.isInput = true →
      s2.si.ninputs = s.si.ninputs + 1 ∧
      s2.si.issued = s.si.issued ++ [s.si.ninputs]) ∧
    (ev.isInput = false →
      s2.si.ninputs = s.si.ninputs ∧ s2.si.issued = s.si.issued) := by
  have hinput : ∀ ty addr, crestNewInput ty addr s = some s2 →
      s2.si.ninputs = s.si.ninputs + 1 ∧
      s2.si.issued = s.si.issued ++ [s.si.ninputs] := by
    intro ty addr h
    rw [crestNewInput] at h
    rcases Option.map_eq_some'.mp h with ⟨p, h1, h2⟩
    rw [SymbolicInterpreter.NewInput] at h1
    split at h1
    · injection h1 with h3
      subst h3
      subst h2
      exact ⟨rfl, rfl⟩
    · exact absurd h1 (by simp)
  have hmap : ∀ (o : Option InterpState),
      o.map (fun x => { s with si := x }) = some s2 →
      (o = some s2.si) ∧ s2 = { s with si := s2.si } := by
    intro o h
    rcases Option.map_eq_some'.mp h with ⟨x, h1, h2⟩
    subst h2
    exact ⟨h1, rfl⟩
  cases ev with
  | regGlobal id addr sz =>
      injection hstep with h; subst h
      exact ⟨fun h => (nomatch h), fun _ => ⟨rfl, rfl⟩⟩
  | load id addr ty val =>
      injection hstep with h; subst h
      rw [__CrestLoad]
      split
      · exact ⟨fun h => (nomatch h), fun _ => ⟨rfl, rfl⟩⟩
      · exact ⟨fun h => (nomatch h), fun _ => ⟨rfl, rfl⟩⟩
  | deref id addr ty val =>
      rw [stepEvent, __CrestDeref] at hstep
      split at hstep
      · injection hstep with h; subst h
        exact ⟨fun h => (nomatch h), fun _ => ⟨rfl, rfl⟩⟩
      · rcases hmap _ hstep with ⟨h1, h2⟩
        have := stepSI_fields (.deref id addr ty val) s.si s2.si rfl h1
        rw [h2]
        exact ⟨fun h => (nomatch h), fun _ => this⟩
  | store id addr =>
      rw [stepEvent, __CrestStore] at hstep
      split at hstep
      · injection hstep with h; subst h
        exact ⟨fun h => (nomatch h), fun _ => ⟨rfl, rfl⟩⟩
      · rcases hmap _ hstep with ⟨h1, h2⟩
        have := stepSI_fields (.store id addr) s.si s2.si rfl h1
        rw [h2]
        exact ⟨fun h => (nomatch h), fun _ => this⟩
  | write id addr =>
      rw [stepEvent, __CrestWrite] at hstep
      split at hstep
      · injection hstep with h; subst h
        exact ⟨fun h => (nomatch h), fun _ => ⟨rfl, rfl⟩⟩
      · rcases hmap _ hstep with ⟨h1, h2⟩
        have := stepSI_fields (.write id addr) s.si s2.si rfl h1
        rw [h2]
        exact ⟨fun h => (nomatch h), fun _ => this⟩
  | clearStack id =>
      injection hstep with h; subst h
      rw [__CrestClearStack]
      split
      · exact ⟨fun h => (nomatch h), fun _ => ⟨rfl, rfl⟩⟩
      · exact ⟨fun h => (nomatch h), fun _ => ⟨rfl, rfl⟩⟩
  | apply1 id op ty val =>
      rw [stepEvent, __CrestApply1] at hstep
      split at hstep
      · split at hstep
        · injection hstep with h; subst h
          exact ⟨fun h => (nomatch h), fun _ => ⟨rfl, rfl⟩⟩
        · split at hstep
          · rcases hmap _ hstep with ⟨h1, h2⟩
            rename_i u _
            have := stepSI_fields (.applyUn id u ty val) s.si s2.si rfl h1
            rw [h2]
            exact ⟨fun h => (nomatch h), fun _ => this⟩
          · exact absurd hstep (by simp)
      · exact absurd hstep (by simp)
  | apply2 id op ty val =>
      rw [stepEvent, __CrestApply2] at hstep
      split at hstep
      · split at hstep
        · injection hstep with h; subst h
          exact ⟨fun h => (nomatch h), fun _ => ⟨rfl, rfl⟩⟩
        · split at hstep
          · split at hstep
            · rcases hmap _ hstep with ⟨h1, h2⟩
              rename_i c _
              have := stepSI_fields (.applyCmp id c ty val) s.si s2.si rfl h1
              rw [h2]
              exact ⟨fun h => (nomatch h), fun _ => this⟩
            · exact absurd hstep (by simp)
          · split at hstep
            · rcases hmap _ hstep with ⟨h1, h2⟩
              rename_i b _
              have := stepSI_fields (.applyBin id b ty val) s.si s2.si rfl h1
              rw [h2]
              exact ⟨fun h => (nomatch h), fun _ => this⟩
            · rcases hmap _ hstep with ⟨h1, h2⟩
              have := stepSI_fields (.applyConc id val) s.si s2.si rfl h1
              rw [h2]
              exact ⟨fun h => (nomatch h), fun _ => this⟩
      · exact absurd hstep (by simp)
  | ptrApply2 id op sz val =>
      rw [stepEvent, __CrestPtrApply2] at hstep
      split at hstep
      · injection hstep with h; subst h
        exact ⟨fun h => (nomatch h), fun _ => ⟨rfl, rfl⟩⟩
      · split at hstep
        · rcases hmap _ hstep with ⟨h1, h2⟩
          rename_i b _
          have := stepSI_fields (.applyPtr id b sz val) s.si s2.si rfl h1
          rw [h2]
          exact ⟨fun h => (nomatch h), fun _ => this⟩
        · exact absurd hstep (by simp)
  | branch id bid b =>
      rw [stepEvent, __CrestBranch] at hstep
      rcases hmap _ hstep with ⟨h1, h2⟩
      have hload : (if s.pre_symbolic then
          SymbolicInterpreter.Load id 0 .CHAR (if b then 1 else 0) s.si
        else s.si).ninputs = s.si.ninputs ∧
        (if s.pre_symbolic then
          SymbolicInterpreter.Load id 0 .CHAR (if b then 1 else 0) s.si
        else s.si).issued = s.si.issued := by
        split <;> exact ⟨rfl, rfl⟩
      have hbr := stepSI_fields (.branch id bid b) _ s2.si rfl h1
      rw [h2]
      refine ⟨fun h => (nomatch h), fun _ => ?_⟩
      exact ⟨hbr.1.trans hload.1, hbr.2.trans hload.2⟩
  | call id fid =>
      injection hstep with h; subst h
      exact ⟨fun h => (nomatch h), fun _ => ⟨rfl, rfl⟩⟩
  | ret id =>
      injection hstep with h; subst h
      exact ⟨fun h => (nomatch h), fun _ => ⟨rfl, rfl⟩⟩
  | handleReturn id ty val =>
      injection hstep with h; subst h
      rw [__CrestHandleReturn]
      split
      · exact ⟨fun h => (nomatch h), fun _ => ⟨rfl, rfl⟩⟩
      · refine ⟨fun h => (nomatch h), fun _ => ?_⟩
        rw [SymbolicInterpreter.HandleReturn]
        split
        · exact ⟨rfl, rfl⟩
        · exact ⟨rfl, rfl⟩
  | inputUChar addr =>
      exact ⟨fun _ => hinput _ _ hstep, fun h => nomatch h⟩
  | inputUShort addr =>
      exact ⟨fun _ => hinput _ _ hstep, fun h => nomatch h⟩
  | inputUInt addr =>
      exact ⟨fun _ => hinput _ _ hstep, fun h => nomatch h⟩
  | inputChar addr =>
      exact ⟨fun _ => hinput _ _ hstep, fun h => nomatch h⟩
  | inputShort addr =>
      exact ⟨fun _ => hinput _ _ hstep, fun h => nomatch h⟩
  | inputInt addr =>
      exact ⟨fun _ => hinput _ _ hstep, fun h => nomatch h⟩

/-- Across any successful run, the input count grows by the number of
fresh-input events and the issued identifiers extend by the consecutive
block starting at the initial count. -/
theorem runEvents_issued (evs : List Event) :
    ∀ s0 s, runEvents evs s0 = some s →
      s.si.ninputs = s0.si.ninputs + countInput evs ∧
      s.si.issued = s0.si.issued ++
        List.range' s0.si.ninputs (countInput evs) := by
  induction evs with
  | nil =>
      intro s0 s hrun
      injection hrun with h
      subst h
      simp [countInput]
  | cons ev evs ih =>
      intro s0 s hrun
      rw [runEvents] at hrun
      split at hrun
      · exact absurd hrun (by simp)
      · rename_i s1 hstep
        have hev := stepEvent_issued ev s0 s1 hstep
        have hrest := ih s1 s hrun
        cases hin : ev.isInput with
        | false =>
            have h1 := hev.2 hin
            constructor
            · rw [hrest.1, h1.1]
              simp [countInput, List.filter_cons, hin]
            · rw [hrest.2, h1.1, h1.2]
              simp [countInput, List.filter_cons, hin]
        | true =>
            have h1 := hev.1 hin
            have hcnt : countInput (ev :: evs) = countInput evs + 1 := by
              simp [countInput, List.filter_cons, hin]
            constructor
            · rw [hrest.1, h1.1, hcnt]
              omega
            · rw [hrest.2, h1.2, h1.1, hcnt, List.range'_succ,
                List.append_assoc]
              rfl

/-- C3: after any event sequence with `N` fresh-input events, the issued
symbolic leaf identifiers are exactly `0 .. N-1` in call order, whatever
other operations are interleaved. -/
theorem C3_variable_ids (inp : List Int) (evs : List Event) (s : CrestState)
    (hrun : runEvents evs (__CrestInit inp) = some s) :
    s.si.issued = List.range (countInput evs) := by
  have h := runEvents_issued evs (__CrestInit inp) s hrun
  rw [h.2]
  simp [__CrestInit, initInterp, List.range_eq_range']

/-- Witness for C3: two fresh inputs interleaved with a global
registration issue identifiers `[0, 1]`. -/
theorem C3_witness :
    runEvents [.inputInt 4, .regGlobal 9 100 8, .inputChar 8]
      (__CrestInit [1, 2]) =
      some ⟨false, ⟨[], [(4, .Basic 4 1 0), (8, .Basic 1 2 1)], [1, 2], 2,
        [0, 1], [], [], 2⟩⟩ ∧
    (⟨false, ⟨[], [(4, .Basic 4 1 0), (8, .Basic 1 2 1)], [1, 2], 2,
        [0, 1], [], [], 2⟩⟩ : CrestState).si.issued =
      List.range (countInput [.inputInt 4, .regGlobal 9 100 8, .inputChar 8]) := by
  refine ⟨by decide, ?_⟩
  exact C3_variable_ids [1, 2] [.inputInt 4, .regGlobal 9 100 8, .inputChar 8]
    ⟨false, ⟨[], [(4, .Basic 4 1 0), (8, .Basic 1 2 1)], [1, 2], 2,
      [0, 1], [], [], 2⟩⟩ (by decide)

/-- Per-event evolution of the pre-symbolic latch: input events clear it,
no event sets it, and while it is set the interpreter keeps an empty
stack, an empty memory and an empty constraint sequence. -/
theorem stepEvent_pre (ev : Event) (s s2 : CrestState)
    (hstep : stepEvent ev s = some s2) (hinv : PreInv s) :
    PreInv s2 ∧ s2.pre_symbolic = (s.pre_symbolic && !ev.isInput) := by
  obtain ⟨pre, si⟩ := s
  cases pre with
  | false =>
      have hfalse : ∀ (o : Option InterpState),
          o.map (fun x => (⟨false, x⟩ : CrestState)) = some s2 →
          PreInv s2 ∧ s2.pre_symbolic = false := by
        intro o h
        rcases Option.map_eq_some'.mp h with ⟨x, _, h2⟩
        subst h2
        exact ⟨fun h => (nomatch h), rfl⟩
      cases ev with
      | regGlobal id addr sz =>
          injection hstep with h
          subst h
          exact ⟨fun h => (nomatch h), rfl⟩
      | load id addr ty val =>
          injection hstep with h
          subst h
          exact ⟨fun h => (nomatch h), rfl⟩
      | deref id addr ty val =>
          have h2 : (SymbolicInterpreter.Deref id addr ty val si).map
              (fun x => (⟨false, x⟩ : CrestState)) = some s2 := hstep
          exact hfalse _ h2
      | store id addr =>
          have h2 : (SymbolicInterpreter.Store id addr si).map
              (fun x => (⟨false, x⟩ : CrestState)) = some s2 := hstep
          exact hfalse _ h2
      | write id addr =>
          have h2 : (SymbolicInterpreter.Write id addr si).map
              (fun x => (⟨false, x⟩ : CrestState)) = some s2 := hstep
          exact hfalse _ h2
      | clearStack id =>
          injection hstep with h
          subst h
          exact ⟨fun h => (nomatch h), rfl⟩
      | apply1 id op ty val =>
          rw [stepEvent, __CrestApply1] at hstep
          split at hstep
          · split at hstep
            · rename_i hp
              exact absurd hp (by simp)
            · split at hstep
              · exact hfalse _ hstep
              · exact absurd hstep (by simp)
          · exact absurd hstep (by simp)
      | apply2 id op ty val =>
          rw [stepEvent, __CrestApply2] at hstep
          split at hstep
          · split at hstep
            · rename_i hp
              exact absurd hp (by simp)
            · split at hstep
              · split at hstep
                · exact hfalse _ hstep
                · exact absurd hstep (by simp)
              · split at hstep
                · exact hfalse _ hstep
                · exact hfalse _ hstep
          · exact absurd hstep (by simp)
      | ptrApply2 id op sz val =>
          rw [stepEvent, __CrestPtrApply2] at hstep
          split at hstep
          · rename_i hp
            exact absurd hp (by simp)
          · split at hstep
            · exact hfalse _ hstep
            · exact absurd hstep (by simp)
      | branch id bid b =>
          have h2 : (SymbolicInterpreter.Branch id bid b si).map
              (fun x => (⟨false, x⟩ : CrestState)) = some s2 := hstep
          exact hfalse _ h2
      | call id fid =>
          injection hstep with h
          subst h
          exact ⟨fun h => (nomatch h), rfl⟩
      | ret id =>
          injection hstep with h
          subst h
          exact ⟨fun h => (nomatch h), rfl⟩
      | handleReturn id ty val =>
          injection hstep with h
          subst h
          exact ⟨fun h => (nomatch h), rfl⟩
      | inputUChar addr =>
          have h2 : (SymbolicInterpreter.NewInput .U_CHAR addr si).map
              (fun p => (⟨false, p.1⟩ : CrestState)) = some s2 := hstep
          rcases Option.map_eq_some'.mp h2 with ⟨p, _, hh⟩
          subst hh
          exact ⟨fun h => (nomatch h), rfl⟩
      | inputUShort addr =>
          have h2 : (SymbolicInterpreter.NewInput .U_SHORT addr si).map
              (fun p => (⟨false, p.1⟩ : CrestState)) = some s2 := hstep
          rcases Option.map_eq_some'.mp h2 with ⟨p, _, hh⟩
          subst hh
          exact ⟨fun h => (nomatch h), rfl⟩
      | inputUInt addr =>
          have h2 : (SymbolicInterpreter.NewInput .U_INT addr si).map
              (fun p => (⟨false, p.1⟩ : CrestState)) = some s2 := hstep
          rcases Option.map_eq_some'.mp h2 with ⟨p, _, hh⟩
          subst hh
          exact ⟨fun h => (nomatch h), rfl⟩
      | inputChar addr =>
          have h2 : (SymbolicInterpreter.NewInput .CHAR addr si).map
              (fun p => (⟨false, p.1⟩ : CrestState)) = some s2 := hstep
          rcases Option.map_eq_some'.mp h2 with ⟨p, _, hh⟩
          subst hh
          exact ⟨fun h => (nomatch h), rfl⟩
      | inputShort addr =>
          have h2 : (SymbolicInterpreter.NewInput .SHORT addr si).map
              (fun p => (⟨false, p.1⟩ : CrestState)) = some s2 := hstep
          rcases Option.map_eq_some'.mp h2 with ⟨p, _, hh⟩
          subst hh
          exact ⟨fun h => (nomatch h), rfl⟩
      | inputInt addr =>
          have h2 : (SymbolicInterpreter.NewInput .INT addr si).map
              (fun p => (⟨false, p.1⟩ : CrestState)) = some s2 := hstep
          rcases Option.map_eq_some'.mp h2 with ⟨p, _, hh⟩
          subst hh
          exact ⟨fun h => (nomatch h), rfl⟩
  | true =>
      obtain ⟨hstk, hmem, hcons⟩ := hinv rfl
      simp only at hstk hmem hcons
      obtain ⟨stk, mem, inp2, ni, iss, cons, br, al⟩ := si
      simp only at hstk hmem hcons
      subst hstk hmem hcons
      cases ev with
      | regGlobal id addr sz =>
          injection hstep with h
          subst h
          exact ⟨hinv, rfl⟩
      | load id addr ty val =>
          injection hstep with h
          subst h
          exact ⟨hinv, rfl⟩
      | deref id addr ty val =>
          injection hstep with h
          subst h
          exact ⟨hinv, rfl⟩
      | store id addr =>
          injection hstep with h
          subst h
          exact ⟨hinv, rfl⟩
      | write id addr =>
          injection hstep with h
          subst h
          exact ⟨hinv, rfl⟩
      | clearStack id =>
          injection hstep with h
          subst h
          exact ⟨hinv, rfl⟩
      | apply1 id op ty val =>
          rw [stepEvent, __CrestApply1] at hstep
          split at hstep
          · rw [if_pos rfl] at hstep
            injection hstep with h
            subst h
            exact ⟨hinv, rfl⟩
          · exact absurd hstep (by simp)
      | apply2 id op ty val =>
          rw [stepEvent, __CrestApply2] at hstep
          split at hstep
          · rw [if_pos rfl] at hstep
            injection hstep with h
            subst h
            exact ⟨hinv, rfl⟩
          · exact absurd hstep (by simp)
      | ptrApply2 id op sz val =>
          injection hstep with h
          subst h
          exact ⟨hinv, rfl⟩
      | branch id bid b =>
          injection hstep with h
          subst h
          exact ⟨fun _ => ⟨rfl, rfl, rfl⟩, rfl⟩
      | call id fid =>
          injection hstep with h
          subst h
          exact ⟨hinv, rfl⟩
      | ret id =>
          injection hstep with h
          subst h
          exact ⟨hinv, rfl⟩
      | handleReturn id ty val =>
          injection hstep with h
          subst h
          exact ⟨hinv, rfl⟩
      | inputUChar addr =>
          have h2 : (SymbolicInterpreter.NewInput .U_CHAR addr
              ⟨[], [], inp2, ni, iss, [], br, al⟩).map
              (fun p => (⟨false, p.1⟩ : CrestState)) = some s2 := hstep
          rcases Option.map_eq_some'.mp h2 with ⟨p, _, hh⟩
          subst hh
          exact ⟨fun h => (nomatch h), rfl⟩
      | inputUShort addr =>
          have h2 : (SymbolicInterpreter.NewInput .U_SHORT addr
              ⟨[], [], inp2, ni, iss, [], br, al⟩).map
              (fun p => (⟨false, p.1⟩ : CrestState)) = some s2 := hstep
          rcases Option.map_eq_some'.mp h2 with ⟨p, _, hh⟩
          subst hh
          exact ⟨fun h => (nomatch h), rfl⟩
      | inputUInt addr =>
          have h2 : (SymbolicInterpreter.NewInput .U_INT addr
              ⟨[], [], inp2, ni, iss, [], br, al⟩).map
              (fun p => (⟨false, p.1⟩ : CrestState)) = some s2 := hstep
          rcases Option.map_eq_some'.mp h2 with ⟨p, _, hh⟩
          subst hh
          exact ⟨fun h => (nomatch h), rfl⟩
      | inputChar addr =>
          have h2 : (SymbolicInterpreter.NewInput .CHAR addr
              ⟨[], [], inp2, ni, iss, [], br, al⟩).map
              (fun p => (⟨false, p.1⟩ : CrestState)) = some s2 := hstep
          rcases Option.map_eq_some'.mp h2 with ⟨p, _, hh⟩
          subst hh
          exact ⟨fun h => (nomatch h), rfl⟩
      | inputShort addr =>
          have h2 : (SymbolicInterpreter.NewInput .SHORT addr
              ⟨[], [], inp2, ni, iss, [], br, al⟩).map
              (fun p => (⟨false, p.1⟩ : CrestState)) = some s2 := hstep
          rcases Option.map_eq_some'.mp h2 with ⟨p, _, hh⟩
          subst hh
          exact ⟨fun h => (nomatch h), rfl⟩
      | inputInt addr =>
          have h2 : (SymbolicInterpreter.NewInput .INT addr
              ⟨[], [], inp2, ni, iss, [], br, al⟩).map
              (fun p => (⟨false, p.1⟩ : CrestState)) = some s2 := hstep
          rcases Option.map_eq_some'.mp h2 with ⟨p, _, hh⟩
          subst hh
          exact ⟨fun h => (nomatch h), rfl⟩

/-- Across any successful run the latch holds at the end exactly when it
held at the start and no input event occurred, and the pre-symbolic
invariant is maintained. -/
theorem runEvents_pre (evs : List Event) :
    ∀ s0 s, runEvents evs s0 = some s → PreInv s0 →
      PreInv s ∧
      s.pre_symbolic = (s0.pre_symbolic && decide (countInput evs = 0)) := by
  induction evs with
  | nil =>
      intro s0 s hrun hinv
      injection hrun with h
      subst h
      exact ⟨hinv, by simp [countInput]⟩
  | cons ev evs ih =>
      intro s0 s hrun hinv
      rw [runEvents] at hrun
      split at hrun
      · exact absurd hrun (by simp)
      · rename_i s1 hstep
        have hev := stepEvent_pre ev s0 s1 hstep hinv
        have hrest := ih s1 s hrun hev.1
        refine ⟨hrest.1, ?_⟩
        rw [hrest.2, hev.2]
        cases hin : ev.isInput with
        | false =>
            simp [countInput, List.filter_cons, hin]
        | true =>
            simp [countInput, List.filter_cons, hin]

/-- C5: the pre-symbolic regime is a one-way latch — it holds from
initialization until the first fresh-input event (during which no
constraint is recorded), is cleared permanently by the first such event,
and is never restored by any later operation. -/
theorem C5_presymbolic_latch (inp : List Int) (evs : List Event)
    (s : CrestState) (hrun : runEvents evs (__CrestInit inp) = some s) :
    (s.pre_symbolic = true ↔ countInput evs = 0) ∧
    (countInput evs = 0 → s.si.constraints = []) := by
  have h0 : PreInv (__CrestInit inp) := by
    intro _
    exact ⟨rfl, rfl, rfl⟩
  obtain ⟨hinv, hpre⟩ := runEvents_pre evs (__CrestInit inp) s hrun h0
  constructor
  · rw [hpre]
    simp [__CrestInit]
  · intro hc
    refine (hinv ?_).2.2
    rw [hpre, hc]
    simp [__CrestInit]

/-- Witness for C5: a pre-symbolic branch followed by an input and a
load ends with the latch cleared; a branch alone keeps it set with no
constraints. -/
theorem C5_witness :
    (((⟨true, ⟨[], [], [42], 0, [], [], [5], 0⟩⟩ : CrestState).pre_symbolic
        = true) ↔ countInput [.branch 1 5 true] = 0) ∧
    (⟨true, ⟨[], [], [42], 0, [], [], [5], 0⟩⟩ : CrestState).si.constraints
      = [] := by
  have h := C5_presymbolic_latch [42] [.branch 1 5 true]
    ⟨true, ⟨[], [], [42], 0, [], [], [5], 0⟩⟩ (by decide)
  exact ⟨h.1, h.2 (by decide)⟩

/-- C10: in a reachable pre-symbolic state the evaluation stack is empty,
so the fake concrete `CHAR` load of the taken value at address 0 that
`__CrestBranch` pushes makes exactly one pending value, the inner
`Branch` succeeds, and only the branch identity is recorded. -/
theorem C10_presymbolic_branch (inp : List Int) (evs : List Event)
    (s : CrestState) (id bid : Int) (b : Bool)
    (hrun : runEvents evs (__CrestInit inp) = some s)
    (hpre : s.pre_symbolic = true) :
    (SymbolicInterpreter.Load id 0 .CHAR (if b then 1 else 0) s.si).stack =
      [((if b then 1 else 0 : Int), none)] ∧
    __CrestBranch id bid b s =
      some { s with si :=
        { s.si with branches := s.si.branches ++ [bid] } } := by
  have h0 : PreInv (__CrestInit inp) := by
    intro _
    exact ⟨rfl, rfl, rfl⟩
  obtain ⟨hinv, _⟩ := runEvents_pre evs (__CrestInit inp) s hrun h0
  obtain ⟨hstk, hmem, _⟩ := hinv hpre
  obtain ⟨pre, si⟩ := s
  obtain ⟨stk, mem, inp2, ni, iss, cons, br, al⟩ := si
  simp only at hstk hmem
  subst hstk hmem
  simp only at hpre
  subst hpre
  constructor
  · simp [SymbolicInterpreter.Load, memLookup]
  · simp [__CrestBranch, SymbolicInterpreter.Load, memLookup,
      SymbolicInterpreter.Branch]

/-- Witness for C10: from the freshly initialized pre-symbolic state, the
fake load yields exactly one pending concrete value and the branch hook
records only the branch identity. -/
theorem C10_witness :
    (SymbolicInterpreter.Load 1 0 .CHAR 1 (initInterp [])).stack =
      [((1 : Int), none)] ∧
    __CrestBranch 1 3 true (__CrestInit []) =
      some ⟨true, ⟨[], [], [], 0, [], [], [3], 0⟩⟩ := by
  exact C10_presymbolic_branch [] [] (__CrestInit []) 1 3 true rfl rfl

end Crest
